import Mathlib

/-!
Shallow embedding of the quantitative core of the return-analysis app.

The embedding covers:
* the JS numeric helpers shared by the pages (`clamp`, truthiness defaults,
  `uniqueSortedPositiveInts`, the two `quantile` implementations);
* the return-series analyzer of `pages/index.js` (`analyze`);
* the Black-Scholes pricer and normal-CDF approximation of
  `pages/api/leaps-sim.js` (also used by `pages/leaps-scenario.js`);
* the scenario evaluators of `pages/leaps-scenario.js` (two variants appear in
  the repository: the `pages/` one and the one in `src/unnamed/part_003`);
* the request validation / checkpoint construction of the Monte Carlo handler
  in `pages/api/leaps-sim.js`.

Modelling conventions: JS double values that the code has already checked with
`Number.isFinite` are modelled as `ℚ` (for the discrete request plumbing) or
`ℝ` (for the transcendental pricing math); a parsed JS number that may be NaN
(a non-numeric parse) is modelled as `Option ℚ` or `Option ℝ` with `none` for
NaN.  Calendar dates parsed from ISO strings are UTC midnights, so they are
modelled by their integer day number; `daysBetweenUTC` is then integer
subtraction.
-/

namespace ReturnApp

/-- JS `clamp(x, lo, hi) = Math.max(lo, Math.min(hi, x))`
(`pages/api/leaps-sim.js`, `pages/index.js`). -/
def jsClamp {α : Type} [LinearOrder α] (x lo hi : α) : α :=
  max lo (min hi x)

/-- JS truthiness default `Number(x) || d`: NaN (modelled as `none`) and `0`
are falsy, every other finite number is kept. -/
def jsOr (x : Option ℚ) (d : ℚ) : ℚ :=
  match x with
  | none => d
  | some v => if v = 0 then d else v

/-- JS array read `a[i]`: `none` («undefined») for a negative or out-of-range
index. -/
def jsIndex (l : List ℚ) (i : ℤ) : Option ℚ :=
  if 0 ≤ i then l[i.toNat]? else none

/-- JS ascending numeric sort `[...arr].sort((x, y) => x - y)`. -/
def jsSorted (l : List ℚ) : List ℚ :=
  l.insertionSort (· ≤ ·)

/-- `uniqueSortedPositiveInts` of `pages/api/leaps-sim.js` restricted to
integer entries (the second call site feeds it an integer array): insert the
positive entries into a `Set` (de-duplication), then sort ascending. -/
def uniqueSortedPositiveInts (arr : List ℤ) : List ℤ :=
  ((arr.filter fun n => decide (0 < n)).dedup).insertionSort (· ≤ ·)

/-- `uniqueSortedPositiveInts` on a raw JS array: each entry is parsed with
`Number` (`none` = NaN), floored, and kept only when finite and positive. -/
def uniqueSortedPositiveIntsRaw (arr : List (Option ℚ)) : List ℤ :=
  uniqueSortedPositiveInts ((arr.filterMap id).map fun x => ⌊x⌋)

/-- `quantile(arr, q)` of `pages/index.js`: copy-sort ascending, take
`pos = (n - 1) * q`, linearly interpolate between index `⌊pos⌋` and the next
index when that next index exists.  `none` models the `undefined`/NaN results
of the JS function (empty array, out-of-range index). -/
def quantile (arr : List ℚ) (q : ℚ) : Option ℚ :=
  if arr.isEmpty then none
  else
    let a := jsSorted arr
    let pos : ℚ := ((a.length : ℚ) - 1) * q
    let base : ℤ := ⌊pos⌋
    let rest : ℚ := pos - (base : ℚ)
    match jsIndex a (base + 1) with
    | none => jsIndex a base
    | some nxt => (jsIndex a base).map fun cur => cur + rest * (nxt - cur)

/-- `quantile(sortedArr, p)` of `pages/api/leaps-sim.js`: the caller passes an
already sorted array; `lo = ⌊idx⌋`, `hi = ⌈idx⌉`, weight `w = idx - lo`. -/
def quantileSorted (sortedArr : List ℚ) (p : ℚ) : Option ℚ :=
  if sortedArr.length = 0 then none
  else
    let idx : ℚ := ((sortedArr.length : ℚ) - 1) * p
    let lo : ℤ := ⌊idx⌋
    let hi : ℤ := ⌈idx⌉
    if lo = hi then jsIndex sortedArr lo
    else
      let w : ℚ := idx - (lo : ℚ)
      match jsIndex sortedArr lo, jsIndex sortedArr hi with
      | some x, some y => some (x * (1 - w) + y * w)
      | _, _ => none

/-- The conventional median, written from the spec side of claim C9 as the
comparison target: middle element of the ascending sort for odd length,
average of the two middle elements for even length. -/
def conventionalMedian (arr : List ℚ) : Option ℚ :=
  let a := jsSorted arr
  let n := a.length
  if n = 0 then none
  else if n % 2 = 1 then a[n / 2]?
  else (a[n / 2 - 1]?).bind fun x => (a[n / 2]?).map fun y => (x + y) / 2

/-- Option type selector of the handlers (`"call"` / `"put"`). -/
inductive OptType where
  | call : OptType
  | put : OptType
deriving DecidableEq, Repr

/-- Checkpoint construction of the `leaps-sim` handler (lines 150-198):
given the day offsets `fromDays` gathered from `checkpointDays` (already
through `uniqueSortedPositiveInts`, in the source it is applied to the raw
array before concatenation — see `handler`), the offsets `fromDates` derived
from `checkpointDates`, and the whole-day horizon `maxD`, keep the offsets in
`(0, maxD]` by clamping, substitute the defaults `[30, 90, 180, 365]` when
empty, force-include `maxD`, and de-duplicate/sort. -/
def buildCpDays (fromDays fromDates : List ℤ) (maxD : ℤ) : List ℤ :=
  let cpDays := fromDays ++ fromDates
  let cleaned :=
    ((uniqueSortedPositiveInts cpDays).map fun d => jsClamp d 1 maxD).filter
      fun d => decide (d ≤ maxD)
  let withDefaults :=
    if cleaned = [] then
      uniqueSortedPositiveInts (([30, 90, 180, 365] : List ℤ).map fun d => jsClamp d 1 maxD)
    else cleaned
  let withTerminal := if maxD ∈ withDefaults then withDefaults else withDefaults ++ [maxD]
  uniqueSortedPositiveInts withTerminal

/-- Request body of the `leaps-sim` handler after `Number(...)` parsing of the
numeric fields (`none` = NaN, i.e. absent or non-numeric) and ISO parsing of
the date fields (`none` = malformed; a valid date is its UTC day number). -/
structure SimRequest where
  spot : Option ℚ
  strike : Option ℚ
  iv : Option ℚ
  rate : Option ℚ
  dividend : Option ℚ
  premiumPaid : Option ℚ
  contracts : Option ℚ
  nSims : Option ℚ
  /-- the `type` field after the handler lowercases it
  (`(type || "call").toLowerCase()`); `none` = absent -/
  typeStr : Option String
  currentDate : Option ℤ
  expiryDate : Option ℤ
  checkpointDays : List (Option ℚ)
  checkpointDates : List (Option ℤ)
deriving Repr

/-- Validated run configuration assembled by the `leaps-sim` handler before
the Monte Carlo loop. -/
structure SimConfig where
  S0 : ℚ
  K : ℚ
  sigma : ℚ
  r : ℚ
  q : ℚ
  optType : OptType
  paid : ℚ
  qty : ℤ
  sims : ℤ
  cur : ℤ
  totalDays : ℤ
  maxD : ℤ
  cpDays : List ℤ
deriving Repr, DecidableEq

/-- Input validation and checkpoint setup of the `leaps-sim` handler
(`pages/api/leaps-sim.js` lines 122-209), stopping before the path loop.
Mirrors the source order: numeric parsing with defaults for `type`,
`contracts`, `nSims`; the finiteness / positivity check on
`[S0, K, sigma, r, q, paid]`; the `sigma ∈ [0, 5]` check; date parsing; the
horizon check `totalDays > 0.5` (dates are UTC midnights, so `totalDays` is an
integer and the check is `1 ≤ totalDays`); checkpoint construction.  `nSims`
is never inspected by the validation: `Number(nSims) || 20000` replaces a NaN
(or zero) parse by `20000` before clamping into `[500, 200000]`. -/
def handler (req : SimRequest) : Except String SimConfig :=
  let optType := if req.typeStr.getD "call" = "put" then OptType.put else OptType.call
  let qty : ℤ := max 1 ⌊jsOr req.contracts 1⌋
  let sims : ℤ := jsClamp ⌊jsOr req.nSims 20000⌋ 500 200000
  match req.spot, req.strike, req.iv, req.rate, req.dividend, req.premiumPaid with
  | some S0, some K, some sigma, some r, some q, some paid =>
    if S0 ≤ 0 ∨ K ≤ 0 then Except.error "Invalid numeric inputs."
    else if sigma < 0 ∨ sigma > 5 then
      Except.error "IV must be between 0 and 5 (i.e., 0% to 500%)."
    else
      match req.currentDate, req.expiryDate with
      | some cur, some exp =>
        let totalDays := exp - cur
        if totalDays ≤ 0 then Except.error "expiryDate must be after currentDate."
        else
          let maxD := totalDays
          let fromDays := uniqueSortedPositiveIntsRaw req.checkpointDays
          let fromDates :=
            (req.checkpointDates.filterMap id).filterMap fun dt =>
              let d := dt - cur
              if 1 ≤ d then some d else none
          Except.ok
            { S0 := S0, K := K, sigma := sigma, r := r, q := q, optType := optType,
              paid := paid, qty := qty, sims := sims, cur := cur,
              totalDays := totalDays, maxD := maxD,
              cpDays := buildCpDays fromDays fromDates maxD }
      | _, _ => Except.error "currentDate / expiryDate must be YYYY-MM-DD."
  | _, _, _, _, _, _ => Except.error "Invalid numeric inputs."

/-- Per-path profit and loss of the Monte Carlo loop
(`pages/api/leaps-sim.js` line 227): `(V - paid) * 100 * qty`. -/
def pathPnl (c : SimConfig) (V : ℚ) : ℚ :=
  (V - c.paid) * 100 * (c.qty : ℚ)

/-! ### Return-series analyzer (`pages/index.js`, `analyze`) -/

/-- Daily returns of `analyze` (lines 56-62): `r = closes[i] / closes[i-1] - 1`
for `i ≥ 1`. -/
noncomputable def returnsOf : List ℝ → List ℝ
  | a :: b :: rest => (b / a - 1) :: returnsOf (b :: rest)
  | _ => []

/-- Equity curve of `analyze` (lines 65-68): starts at `1`, then
`equity[i+1] = equity[i] * (1 + returns[i])`. -/
noncomputable def equityOf (closes : List ℝ) : List ℝ :=
  List.scanl (fun e r => e * (1 + r)) 1 (returnsOf closes)

/-- Running peaks of the drawdown pass (lines 71-87): `peak` starts at
`equity[0]` and is raised to `e` whenever `e ≥ peak`, i.e. `peak := max peak e`
at every element. -/
noncomputable def peaksOf (eq : List ℝ) : List ℝ :=
  match eq with
  | [] => []
  | e0 :: rest => List.scanl (fun p e => max p e) e0 rest

/-- Drawdown sequence of `analyze` (line 84): `dd = e / peak - 1`. -/
noncomputable def drawdownOf (eq : List ℝ) : List ℝ :=
  (eq.zip (peaksOf eq)).map fun pe => pe.1 / pe.2 - 1

/-- `maxDD` of `analyze` (lines 72, 85): starts at `0`, `min`-folded over the
drawdown values. -/
noncomputable def maxDDOf (closes : List ℝ) : ℝ :=
  (drawdownOf (equityOf closes)).foldl min 0

/-- One step of the drawdown-duration state machine of `analyze`
(lines 73-83): on a new high the duration resets to `0`, otherwise it
increments and the maximum duration is updated. -/
noncomputable def ddDurStep : ℝ × ℕ × ℕ → ℝ → ℝ × ℕ × ℕ
  | (peak, dur, maxDur), e =>
    if peak ≤ e then (e, 0, maxDur) else (peak, dur + 1, max maxDur (dur + 1))

/-- `maxDdDuration` of `analyze`: the duration fold over the equity curve with
`peak` starting at `equity[0]`. -/
noncomputable def maxDdDurationOf (eq : List ℝ) : ℕ :=
  match eq with
  | [] => 0
  | e0 :: _ => (eq.foldl ddDurStep (e0, 0, 0)).2.2

/-- `stddev` of `pages/index.js` (lines 20-26): `undefined` (`none`) for fewer
than two samples, else the sample standard deviation (divide by `n - 1`). -/
noncomputable def stddev (arr : List ℝ) : Option ℝ :=
  if arr.length < 2 then none
  else
    let n : ℝ := (arr.length : ℝ)
    let mean := arr.sum / n
    let varSum := (arr.map fun x => (x - mean) ^ 2).sum
    some (Real.sqrt (varSum / (n - 1)))

/-- `dailyVol` of `analyze` (line 102). -/
noncomputable def dailyVolOf (closes : List ℝ) : Option ℝ :=
  stddev (returnsOf closes)

/-- JS `Math.round`: round half toward positive infinity. -/
noncomputable def jsRound (x : ℝ) : ℤ :=
  ⌊x + 1 / 2⌋

/-- Pain-score `depth` term (line 128): `clamp(|maxDD| / 0.60, 0, 1)`. -/
noncomputable def depthOf (closes : List ℝ) : ℝ :=
  jsClamp (|maxDDOf closes| / 0.60) 0 1

/-- Pain-score `length` term (line 129): `clamp(maxDdDuration / 252, 0, 1)`. -/
noncomputable def lengthScoreOf (closes : List ℝ) : ℝ :=
  jsClamp ((maxDdDurationOf (equityOf closes) : ℝ) / 252) 0 1

/-- Pain-score `jitter` term (line 130): `0` when `dailyVol` is `undefined`,
else `clamp(dailyVol / 0.03, 0, 1)`. -/
noncomputable def jitterOf (closes : List ℝ) : ℝ :=
  match dailyVolOf closes with
  | none => 0
  | some v => jsClamp (v / 0.03) 0 1

/-- `painScore` of `analyze` (line 133):
`Math.round(100 * (0.55 * depth + 0.30 * length + 0.15 * jitter))`. -/
noncomputable def painScoreOf (closes : List ℝ) : ℤ :=
  jsRound (100 * (0.55 * depthOf closes + 0.30 * lengthScoreOf closes + 0.15 * jitterOf closes))

/-! ### Normal CDF and Black-Scholes pricer
(`pages/api/leaps-sim.js` lines 14-57; `pages/leaps-scenario.js` has the same
two functions) -/

/-- The five-term polynomial of the Abramowitz-Stegun tail, evaluated at
`t = 1 / (1 + 0.2316419 |x|)`. -/
def asPoly (t : ℝ) : ℝ :=
  0.3193815 + t * (-0.3565638 + t * (1.781478 + t * (-1.821256 + t * 1.330274)))

/-- The tail value `prob` computed by `normCdf` before the `x > 0` flip. -/
noncomputable def normTail (x : ℝ) : ℝ :=
  let t := 1 / (1 + 0.2316419 * |x|)
  let d := 0.3989423 * Real.exp (-(x * x) / 2)
  d * t * asPoly t

/-- `normCdf` of `pages/api/leaps-sim.js`: Abramowitz-Stegun approximation,
`1 - tail` for `x > 0`, `tail` otherwise. -/
noncomputable def normCdf (x : ℝ) : ℝ :=
  if 0 < x then 1 - normTail x else normTail x

/-- Analysis helper: the factor `t * asPoly t` of the tail approximation. -/
def hfun (t : ℝ) : ℝ := t * asPoly t

/-- Analysis helper: the substitution `t = 1 / (1 + 0.2316419 |x|)` of `normCdf`. -/
noncomputable def tfun (x : ℝ) : ℝ := 1 / (1 + 0.2316419 * |x|)

/-- Analysis helper: `exp(x²/2) · normCdf x`, the CDF normalized by the Gaussian
weight, used to compare the two legs of `bsPrice` on a common scale. -/
noncomputable def gval (x : ℝ) : ℝ := Real.exp (x * x / 2) * normCdf x

/-- `d1` of the standard Black-Scholes branch. -/
noncomputable def bsD1 (S K T r q sigma : ℝ) : ℝ :=
  (Real.log (S / K) + (r - q + 0.5 * sigma * sigma) * T) / (sigma * Real.sqrt T)

/-- `bsPrice` of `pages/api/leaps-sim.js` (lines 26-57): intrinsic value at
`T ≤ 0`, discounted deterministic forward payoff at `sigma ≤ 0`, otherwise the
standard formula through `normCdf`. -/
noncomputable def bsPrice (S K T r q sigma : ℝ) (type : OptType) : ℝ :=
  if T ≤ 0 then
    match type with
    | OptType.call => max (S - K) 0
    | OptType.put => max (K - S) 0
  else if sigma ≤ 0 then
    let forward := S * Real.exp ((r - q) * T)
    let disc := Real.exp (-r * T)
    match type with
    | OptType.call => max (forward - K) 0 * disc
    | OptType.put => max (K - forward) 0 * disc
  else
    let sqrtT := Real.sqrt T
    let d1 := bsD1 S K T r q sigma
    let d2 := d1 - sigma * sqrtT
    let discQ := Real.exp (-q * T)
    let discR := Real.exp (-r * T)
    match type with
    | OptType.call => S * discQ * normCdf d1 - K * discR * normCdf d2
    | OptType.put => K * discR * normCdf (-d2) - S * discQ * normCdf (-d1)

/-! ### Scenario point evaluator, `pages/leaps-scenario.js` variant -/

/-- Result record of the `scenario` memo of `pages/leaps-scenario.js`
(lines 157-168), keeping the unrounded numeric fields the claims are about. -/
structure ScenarioResult where
  S : ℝ
  K : ℝ
  T : ℝ
  ivUsed : ℝ
  theoPrice : ℝ
  pnl : Option ℝ
deriving Inhabited

/-- The `scenario` memo of `pages/leaps-scenario.js` (lines 118-169) after a
contract is selected: date checks, spot/assumption checks, then
`sigma = max(0, iv0 + shift)`, `T = max(0, days / 365)` and a direct
`bsPrice` call — there is no materiality guard on `sigma` in this variant.
`cur`/`scen` are parsed dates (UTC day numbers, `none` = malformed), `expDay`
the expiration timestamp in days, and the numeric inputs are `Number(...)`
parses (`none` = NaN). -/
noncomputable def scenarioEval (cur scen : Option ℤ) (expDay : ℝ)
    (scenarioSpot strike rate divYield iv0 ivShift premiumPaid : Option ℝ)
    (side : OptType) : Except String ScenarioResult :=
  match cur, scen with
  | some c, some s =>
    let dToScenario : ℝ := (s : ℝ) - (c : ℝ)
    let dToExpiry : ℝ := expDay - (s : ℝ)
    if dToScenario < 0 then Except.error "Scenario date must be today or later."
    else if dToExpiry < 0 then Except.error "Scenario date must be on/before expiration."
    else
      match scenarioSpot with
      | none => Except.error "Scenario spot must be > 0"
      | some S =>
        if S ≤ 0 then Except.error "Scenario spot must be > 0"
        else
          match strike, rate, divYield, iv0, ivShift with
          | some K, some r, some q, some iv, some shift =>
            let sigma := max 0 (iv + shift)
            let T := max 0 (dToExpiry / 365)
            let theo := bsPrice S K T r q sigma side
            let pnl :=
              match premiumPaid with
              | some paid => if 0 ≤ paid then some ((theo - paid) * 100) else none
              | none => none
            Except.ok
              { S := S, K := K, T := T, ivUsed := sigma, theoPrice := theo, pnl := pnl }
          | _, _, _, _, _ => Except.error "Invalid numeric assumptions."
  | _, _ => Except.error "Scenario date must be YYYY-MM-DD"

/-! ### Scenario point evaluator, `src/unnamed/part_003` variant -/

/-- `normCdf` of `src/unnamed/part_003` (lines 36-52): the erf-style
Abramowitz-Stegun approximation with `p = 0.3275911`. -/
noncomputable def normCdfP3 (x : ℝ) : ℝ :=
  let sign : ℝ := if x < 0 then -1 else 1
  let absX := |x| / Real.sqrt 2
  let t := 1 / (1 + 0.3275911 * absX)
  let y :=
    1 - (((((1.061405429 * t + -1.453152027) * t + 1.421413741) * t + -0.284496736) * t +
      0.254829592) * t) * Real.exp (-(absX * absX))
  0.5 * (1 + sign * y)

/-- `bsPrice` of `src/unnamed/part_003` (lines 54-66): returns `null`
(`none`) unless `S > 0`, `K > 0`, `sigma > 0` and `T > 0` (a NaN `sigma`
fails the `sigma > 0` test), else the standard formula through
`normCdfP3`. -/
noncomputable def bsPriceP3 (S K r q sigma T : ℝ) (isCall : Bool) : Option ℝ :=
  if 0 < S ∧ 0 < K ∧ 0 < sigma ∧ 0 < T then
    let sqrtT := Real.sqrt T
    let d1 := (Real.log (S / K) + (r - q + 0.5 * sigma * sigma) * T) / (sigma * sqrtT)
    let d2 := d1 - sigma * sqrtT
    let dfR := Real.exp (-r * T)
    let dfQ := Real.exp (-q * T)
    some
      (if isCall then S * dfQ * normCdfP3 d1 - K * dfR * normCdfP3 d2
       else K * dfR * normCdfP3 (-d2) - S * dfQ * normCdfP3 (-d1))
  else none

/-- The `theo` memo of `src/unnamed/part_003` (lines 207-236).  `clampNumber`
parses with a fallback: `q` and `ivShift` fall back to `0`, the others to NaN
(`none`, which propagates to a non-finite price, reported as `null`).
`sigma = sigmaRaw > 0.0005 ? sigmaRaw : NaN`: below (or at) the materiality
threshold the evaluator declines and yields `null` instead of a price.
`T` is `none` when the expiry or scenario date is missing. -/
noncomputable def theoP3 (scenarioS strike r qIn ivShiftIn baseIv : Option ℝ)
    (T : Option ℝ) (isCall : Bool) : Option ℝ :=
  match T with
  | none => none
  | some t =>
    if t ≤ 0 then none
    else
      match scenarioS, strike, r, baseIv with
      | some S, some K, some rr, some iv0 =>
        let qq := qIn.getD 0
        let shift := ivShiftIn.getD 0
        let sigmaRaw := iv0 + shift
        if 0.0005 < sigmaRaw then bsPriceP3 S K rr qq sigmaRaw t isCall
        else none
      | _, _, _, _ => none

/-! ### Helper lemmas about the `leaps-sim` handler -/

/-- Whenever the handler accepts a request, the path count it runs with is
`clamp(floor(Number(nSims) || 20000), 500, 200000)`. -/
theorem handler_ok_sims (req : SimRequest) (c : SimConfig)
    (hc : handler req = Except.ok c) :
    c.sims = jsClamp ⌊jsOr req.nSims 20000⌋ 500 200000 := by
  unfold handler at hc
  dsimp only at hc
  repeat' split at hc
  all_goals simp_all
  all_goals subst hc
  all_goals rfl

/-- Whenever the handler accepts a request, the premium it carries into the
PnL computation is the parsed `premiumPaid`. -/
theorem handler_ok_paid (req : SimRequest) (c : SimConfig) (p : ℚ)
    (hp : req.premiumPaid = some p) (hc : handler req = Except.ok c) :
    c.paid = p := by
  unfold handler at hc
  dsimp only at hc
  repeat' split at hc
  all_goals simp_all
  all_goals subst hc
  all_goals rfl

/-- A concrete, otherwise fully valid, request whose `nSims` field is
non-numeric (`Number` parses it to NaN). -/
def reqNoSims : SimRequest :=
  { spot := some 100, strike := some 100, iv := some (1/5), rate := some (1/20),
    dividend := some 0, premiumPaid := some 10, contracts := some 1,
    nSims := none, typeStr := some "call", currentDate := some 0,
    expiryDate := some 365, checkpointDays := [], checkpointDates := [] }

/-- C1, counterexample: the claim says a non-numeric `nSims` makes `simulate`
fail with the invalid-numeric-input error; in the code the request
`reqNoSims` (whose `nSims` parses to NaN) is accepted (`handler` returns
`Except.ok`, so `toOption` is `some`) and the simulation runs with the
default path count 20000. -/
theorem C1_counterexample :
    reqNoSims.nSims = none ∧
      (handler reqNoSims).toOption.map SimConfig.sims = some 20000 := by
  refine ⟨rfl, ?_⟩
  simp only [handler, reqNoSims]
  norm_num [jsOr, jsClamp]
  exact ⟨_, rfl, rfl⟩

/-- C1 (amended): a non-numeric `nSims` does not fail the call; the handler
behaves exactly as if `nSims = 20000` had been sent (`Number(nSims) || 20000`
silently substitutes the default, which is then clamped into
`[500, 200000]`), and any accepted run uses 20000 paths. -/
theorem C1_amended_nSims_default (req : SimRequest) (h : req.nSims = none) :
    handler req = handler { req with nSims := some 20000 } ∧
    ∀ c, handler req = Except.ok c → c.sims = 20000 := by
  constructor
  · unfold handler
    simp only [h]
    norm_num [jsOr]
  · intro c hc
    rw [handler_ok_sims req c hc, h]
    norm_num [jsOr, jsClamp]

/-- Witness for `C1_amended_nSims_default` at the concrete request
`reqNoSims`. -/
theorem C1_amended_witness :
    handler reqNoSims = handler { reqNoSims with nSims := some 20000 } ∧
    ∀ c, handler reqNoSims = Except.ok c → c.sims = 20000 :=
  C1_amended_nSims_default reqNoSims rfl

/-- C10: for a request whose other numeric and date fields pass validation,
the handler accepts if and only if `premiumPaid` parses to a finite number;
any finite parse — negative values included, the handler imposes no
`premiumPaid ≥ 0` constraint — is carried into the per-path PnL computation
`(V - paid) * 100 * qty`. -/
theorem C10_premium_validation (req : SimRequest) (S K sigma r q : ℚ) (cur exp : ℤ)
    (hS : req.spot = some S) (hS0 : 0 < S)
    (hK : req.strike = some K) (hK0 : 0 < K)
    (hsig : req.iv = some sigma) (hs0 : 0 ≤ sigma) (hs5 : sigma ≤ 5)
    (hr : req.rate = some r) (hq : req.dividend = some q)
    (hcur : req.currentDate = some cur) (hexp : req.expiryDate = some exp)
    (hdate : cur < exp) :
    ((handler req).toOption.isSome = true ↔ req.premiumPaid.isSome = true) ∧
    ∀ p c, req.premiumPaid = some p → handler req = Except.ok c →
      c.paid = p ∧ ∀ V, pathPnl c V = (V - p) * 100 * (c.qty : ℚ) := by
  constructor
  · cases hp : req.premiumPaid with
    | none =>
      unfold handler
      rw [hS, hK, hsig, hr, hq, hp]
      exact Iff.rfl
    | some p =>
      unfold handler
      rw [hS, hK, hsig, hr, hq, hp, hcur, hexp]
      dsimp only
      rw [if_neg (by push_neg; constructor <;> linarith),
        if_neg (by push_neg; constructor <;> linarith), if_neg (by omega)]
      exact Iff.rfl
  · intro p c hp hc
    refine ⟨handler_ok_paid req c p hp hc, fun V => ?_⟩
    rw [pathPnl, handler_ok_paid req c p hp hc]

/-- A concrete request with a negative finite `premiumPaid`. -/
def reqNegPremium : SimRequest :=
  { spot := some 150, strike := some 120, iv := some (3/10), rate := some (1/25),
    dividend := some (1/100), premiumPaid := some (-5), contracts := some 2,
    nSims := some 1000, typeStr := some "put", currentDate := some 100,
    expiryDate := some 830, checkpointDays := [some 30], checkpointDates := [] }

/-- Witness for `C10_premium_validation` at `reqNegPremium`: the request is
accepted even though its premium is negative, and the premium flows into the
PnL formula. -/
theorem C10_witness :
    ((handler reqNegPremium).toOption.isSome = true ↔
      reqNegPremium.premiumPaid.isSome = true) ∧
    ∀ p c, reqNegPremium.premiumPaid = some p → handler reqNegPremium = Except.ok c →
      c.paid = p ∧ ∀ V, pathPnl c V = (V - p) * 100 * (c.qty : ℚ) :=
  C10_premium_validation reqNegPremium 150 120 (3/10) (1/25) (1/100) 100 830
    rfl (by norm_num) rfl (by norm_num) rfl (by norm_num) (by norm_num)
    rfl rfl rfl rfl (by norm_num)

/-! ### Checkpoint-list lemmas (claim C4) -/

theorem mem_uniqueSortedPositiveInts {a : ℤ} {l : List ℤ} :
    a ∈ uniqueSortedPositiveInts l ↔ a ∈ l ∧ 0 < a := by
  simp [uniqueSortedPositiveInts, List.mem_insertionSort, List.mem_dedup, List.mem_filter]

theorem uniqueSortedPositiveInts_sorted (l : List ℤ) :
    (uniqueSortedPositiveInts l).Sorted (· ≤ ·) :=
  List.sorted_insertionSort _ _

theorem uniqueSortedPositiveInts_nodup (l : List ℤ) :
    (uniqueSortedPositiveInts l).Nodup :=
  ((List.perm_insertionSort _ _).nodup_iff).mpr (List.nodup_dedup _)

theorem uniqueSortedPositiveInts_sorted_lt (l : List ℤ) :
    (uniqueSortedPositiveInts l).Sorted (· < ·) :=
  (uniqueSortedPositiveInts_sorted l).lt_of_le (uniqueSortedPositiveInts_nodup l)

theorem uniqueSortedPositiveInts_ext {l₁ l₂ : List ℤ}
    (h : ∀ a : ℤ, 0 < a → (a ∈ l₁ ↔ a ∈ l₂)) :
    uniqueSortedPositiveInts l₁ = uniqueSortedPositiveInts l₂ := by
  apply List.eq_of_perm_of_sorted _ (uniqueSortedPositiveInts_sorted l₁)
    (uniqueSortedPositiveInts_sorted l₂)
  rw [List.perm_ext_iff_of_nodup (uniqueSortedPositiveInts_nodup l₁)
    (uniqueSortedPositiveInts_nodup l₂)]
  intro a
  simp only [mem_uniqueSortedPositiveInts]
  exact ⟨fun ⟨ha, hp⟩ => ⟨(h a hp).mp ha, hp⟩, fun ⟨ha, hp⟩ => ⟨(h a hp).mpr ha, hp⟩⟩

/-- In a `≤`-sorted list, an upper-bound member is the last element. -/
theorem sorted_getLast?_eq :
    ∀ l : List ℤ, l.Sorted (· ≤ ·) → ∀ m : ℤ, m ∈ l → (∀ x ∈ l, x ≤ m) →
      l.getLast? = some m
  | [], _, _, hmem, _ => absurd hmem (List.not_mem_nil _)
  | [a], _, m, hmem, hub => by
    have : m = a := by simpa using hmem
    simp [this]
  | a :: b :: t, hs, m, hmem, hub => by
    rw [List.getLast?_cons_cons]
    apply sorted_getLast?_eq (b :: t) hs.of_cons m _
      fun x hx => hub x (List.mem_cons_of_mem a hx)
    rcases List.mem_cons.mp hmem with rfl | hm
    · have hab : m ≤ b := (List.sorted_cons.mp hs).1 b (List.mem_cons_self b t)
      have hba : b ≤ m := hub b (List.mem_cons_of_mem m (List.mem_cons_self b t))
      have hbm : b = m := le_antisymm hba hab
      rw [← hbm]
      exact List.mem_cons_self b t
    · exact hm

/-- Core checkpoint-list facts: for a horizon of at least one day the cleaned
checkpoint list is strictly increasing, ends at `maxD`, and falls back to the
clamped defaults `[30, 90, 180, 365]` when the caller-supplied set normalizes
to empty. -/
theorem buildCpDays_spec (fromDays fromDates : List ℤ) (maxD : ℤ) (hmax : 1 ≤ maxD) :
    (buildCpDays fromDays fromDates maxD).Sorted (· < ·) ∧
    (buildCpDays fromDays fromDates maxD).getLast? = some maxD ∧
    (uniqueSortedPositiveInts (fromDays ++ fromDates) = [] →
      buildCpDays fromDays fromDates maxD =
        uniqueSortedPositiveInts
          ((([30, 90, 180, 365] : List ℤ).map fun d => jsClamp d 1 maxD) ++ [maxD])) := by
  have hclamp_le : ∀ d : ℤ, jsClamp d 1 maxD ≤ maxD := fun d => max_le hmax (min_le_left _ _)
  have hclamp_pos : ∀ d : ℤ, 0 < jsClamp d 1 maxD := fun d =>
    lt_of_lt_of_le one_pos (le_max_left _ _)
  set u1 := uniqueSortedPositiveInts (fromDays ++ fromDates) with hu1
  set cleaned :=
    ((u1.map fun d => jsClamp d 1 maxD).filter fun d => decide (d ≤ maxD)) with hcleaned
  set withDefaults :=
    (if cleaned = [] then
      uniqueSortedPositiveInts (([30, 90, 180, 365] : List ℤ).map fun d => jsClamp d 1 maxD)
    else cleaned) with hwd
  set withTerminal :=
    (if maxD ∈ withDefaults then withDefaults else withDefaults ++ [maxD]) with hwt
  have hbuild : buildCpDays fromDays fromDates maxD = uniqueSortedPositiveInts withTerminal := by
    rw [buildCpDays]
  have hwd_bounds : ∀ x ∈ withDefaults, 0 < x ∧ x ≤ maxD := by
    intro x hx
    rw [hwd] at hx
    split at hx
    · rcases mem_uniqueSortedPositiveInts.mp hx with ⟨hmemx, hposx⟩
      rcases List.mem_map.mp hmemx with ⟨d, _, rfl⟩
      exact ⟨hclamp_pos d, hclamp_le d⟩
    · rcases List.mem_filter.mp hx with ⟨hmemx, _⟩
      rcases List.mem_map.mp hmemx with ⟨d, _, rfl⟩
      exact ⟨hclamp_pos d, hclamp_le d⟩
  have hwt_bounds : ∀ x ∈ withTerminal, 0 < x ∧ x ≤ maxD := by
    intro x hx
    rw [hwt] at hx
    split at hx
    · exact hwd_bounds x hx
    · rcases List.mem_append.mp hx with hx | hx
      · exact hwd_bounds x hx
      · have : x = maxD := by simpa using hx
        exact ⟨this ▸ lt_of_lt_of_le one_pos hmax, this ▸ le_refl maxD⟩
  have hmax_mem : maxD ∈ withTerminal := by
    rw [hwt]
    split
    · assumption
    · exact List.mem_append.mpr (Or.inr (List.mem_singleton.mpr rfl))
  refine ⟨hbuild ▸ uniqueSortedPositiveInts_sorted_lt _, ?_, ?_⟩
  · rw [hbuild]
    apply sorted_getLast?_eq _ (uniqueSortedPositiveInts_sorted _) maxD
      (mem_uniqueSortedPositiveInts.mpr ⟨hmax_mem, lt_of_lt_of_le one_pos hmax⟩)
    intro x hx
    exact (hwt_bounds x (mem_uniqueSortedPositiveInts.mp hx).1).2
  · intro hempty
    rw [hbuild]
    apply uniqueSortedPositiveInts_ext
    intro a hpos
    have hcl : cleaned = [] := by
      rw [hcleaned, hempty]
      rfl
    rw [hwt, hwd, if_pos hcl]
    set D := uniqueSortedPositiveInts
      (([30, 90, 180, 365] : List ℤ).map fun d => jsClamp d 1 maxD) with hD
    have hDmem : ∀ b : ℤ, b ∈ D ↔
        b ∈ (([30, 90, 180, 365] : List ℤ).map fun d => jsClamp d 1 maxD) ∧ 0 < b :=
      fun b => mem_uniqueSortedPositiveInts
    constructor
    · intro ha
      split at ha
      · exact List.mem_append.mpr (Or.inl ((hDmem a).mp ha).1)
      · rcases List.mem_append.mp ha with ha | ha
        · exact List.mem_append.mpr (Or.inl ((hDmem a).mp ha).1)
        · exact List.mem_append.mpr (Or.inr ha)
    · intro ha
      rcases List.mem_append.mp ha with ha | ha
      · have haD : a ∈ D := (hDmem a).mpr ⟨ha, hpos⟩
        split
        · exact haD
        · exact List.mem_append.mpr (Or.inl haD)
      · have ha' : a = maxD := by simpa using ha
        split
        · next hmem => exact ha' ▸ hmem
        · exact List.mem_append.mpr (Or.inr (by simpa using ha'))

/-- Whenever the handler accepts a request, its configuration satisfies
`1 ≤ maxD`, `maxD = totalDays` and the checkpoint list is the
`buildCpDays` pipeline output. -/
theorem handler_ok_cpDays (req : SimRequest) (c : SimConfig)
    (hc : handler req = Except.ok c) :
    1 ≤ c.maxD ∧ c.maxD = c.totalDays ∧
      c.cpDays =
        buildCpDays (uniqueSortedPositiveIntsRaw req.checkpointDays)
          ((req.checkpointDates.filterMap id).filterMap fun dt =>
            if 1 ≤ dt - c.cur then some (dt - c.cur) else none)
          c.maxD := by
  unfold handler at hc
  dsimp only at hc
  repeat' split at hc
  all_goals simp_all
  all_goals subst hc
  all_goals simp_all
  all_goals omega

/-- C4: every accepted simulate request yields a strictly increasing
checkpoint day-offset list whose last element is the whole-day horizon
`maxD = totalDays`; when the caller-supplied checkpoint set normalizes to
empty, the result is exactly the defaults `[30, 90, 180, 365]` clamped to the
horizon (with the terminal checkpoint forced in). -/
theorem C4_checkpoints (req : SimRequest) (c : SimConfig)
    (hc : handler req = Except.ok c) :
    c.cpDays.Sorted (· < ·) ∧
    c.cpDays.getLast? = some c.maxD ∧
    c.maxD = c.totalDays ∧
    (uniqueSortedPositiveInts
        (uniqueSortedPositiveIntsRaw req.checkpointDays ++
          ((req.checkpointDates.filterMap id).filterMap fun dt =>
            if 1 ≤ dt - c.cur then some (dt - c.cur) else none)) = [] →
      c.cpDays =
        uniqueSortedPositiveInts
          ((([30, 90, 180, 365] : List ℤ).map fun d => jsClamp d 1 c.maxD) ++ [c.maxD])) := by
  obtain ⟨hmax, hmaxtot, hcp⟩ := handler_ok_cpDays req c hc
  obtain ⟨hsorted, hlast, hdef⟩ := buildCpDays_spec
    (uniqueSortedPositiveIntsRaw req.checkpointDays)
    ((req.checkpointDates.filterMap id).filterMap fun dt =>
      if 1 ≤ dt - c.cur then some (dt - c.cur) else none)
    c.maxD hmax
  exact ⟨hcp ▸ hsorted, hcp ▸ hlast, hmaxtot, fun he => hcp ▸ hdef he⟩

/-- An `Except` whose `toOption` is `some` is `ok`. -/
theorem except_toOption_eq_some {ε α : Type} {e : Except ε α} {a : α}
    (h : e.toOption = some a) : e = Except.ok a := by
  cases e with
  | error err => simp [Except.toOption] at h
  | ok b => rw [show b = a from by simpa [Except.toOption] using h]

/-- A concrete valid request mixing day-offset checkpoints (one beyond the
horizon, one NaN) and date checkpoints (one malformed). -/
def reqCp : SimRequest :=
  { spot := some 100, strike := some 100, iv := some 1, rate := some 0,
    dividend := some 0, premiumPaid := some 10, contracts := some 1,
    nSims := some 1000, typeStr := some "put", currentDate := some 0,
    expiryDate := some 365, checkpointDays := [some 30, some 400, none],
    checkpointDates := [some 100, none] }

/-- The configuration the handler produces for `reqCp`: the offset 400 is
clamped onto the terminal checkpoint 365 and de-duplicated. -/
def cCp : SimConfig :=
  { S0 := 100, K := 100, sigma := 1, r := 0, q := 0, optType := OptType.put,
    paid := 10, qty := 1, sims := 1000, cur := 0, totalDays := 365, maxD := 365,
    cpDays := [30, 100, 365] }

/-- Witness for `C4_checkpoints` at the concrete request `reqCp`. -/
theorem C4_witness :
    cCp.cpDays.Sorted (· < ·) ∧
    cCp.cpDays.getLast? = some cCp.maxD ∧
    cCp.maxD = cCp.totalDays ∧
    (uniqueSortedPositiveInts
        (uniqueSortedPositiveIntsRaw reqCp.checkpointDays ++
          ((reqCp.checkpointDates.filterMap id).filterMap fun dt =>
            if 1 ≤ dt - cCp.cur then some (dt - cCp.cur) else none)) = [] →
      cCp.cpDays =
        uniqueSortedPositiveInts
          ((([30, 90, 180, 365] : List ℤ).map fun d => jsClamp d 1 cCp.maxD) ++
            [cCp.maxD])) :=
  C4_checkpoints reqCp cCp (except_toOption_eq_some (by decide))

/-! ### Return-series lemmas (claims C7, C8) -/

theorem returnsOf_length : ∀ l : List ℝ, (returnsOf l).length = l.length - 1
  | [] => rfl
  | [_] => rfl
  | a :: b :: rest => by
    rw [returnsOf]
    simp only [List.length_cons, returnsOf_length (b :: rest)]
    omega

theorem returnsOf_getD : ∀ (l : List ℝ) (i : ℕ), i + 1 < l.length →
    (returnsOf l).getD i 0 = l.getD (i + 1) 0 / l.getD i 0 - 1
  | [], i, h => by simp at h
  | [_], i, h => by simp at h
  | a :: b :: rest, 0, _ => by simp [returnsOf]
  | a :: b :: rest, i + 1, h => by
    rw [returnsOf]
    simp only [List.getD_cons_succ]
    exact returnsOf_getD (b :: rest) i (by simpa using h)

theorem scanl_getD_zero (f : ℝ → ℝ → ℝ) (b : ℝ) (l : List ℝ) :
    (List.scanl f b l).getD 0 0 = b := by
  cases l <;> rfl

theorem scanl_getD_succ (f : ℝ → ℝ → ℝ) : ∀ (l : List ℝ) (b : ℝ) (i : ℕ),
    i < l.length →
    (List.scanl f b l).getD (i + 1) 0 = f ((List.scanl f b l).getD i 0) (l.getD i 0)
  | [], _, i, h => by simp at h
  | a :: l, b, 0, _ => by
    rw [List.scanl_cons]
    cases l <;> rfl
  | a :: l, b, i + 1, h => by
    rw [List.scanl_cons]
    simp only [List.singleton_append, List.getD_cons_succ]
    exact scanl_getD_succ f l (f b a) i (by simpa using h)

/-- C7: for an ascending positive price series of length at least 2, the
returns sequence has length n-1 with `r[i] = close[i+1]/close[i] - 1`, and the
equity sequence has length n, starts at 1 and satisfies
`equity[i+1] = equity[i] * (1 + r[i])`. -/
theorem C7_returns_equity (closes : List ℝ) (h2 : 2 ≤ closes.length)
    (hpos : ∀ c ∈ closes, 0 < c) :
    (returnsOf closes).length = closes.length - 1 ∧
    (∀ i : ℕ, i + 1 < closes.length →
      (returnsOf closes).getD i 0 = closes.getD (i + 1) 0 / closes.getD i 0 - 1) ∧
    (equityOf closes).length = closes.length ∧
    (equityOf closes).getD 0 0 = 1 ∧
    (∀ i : ℕ, i + 1 < (equityOf closes).length →
      (equityOf closes).getD (i + 1) 0 =
        (equityOf closes).getD i 0 * (1 + (returnsOf closes).getD i 0)) := by
  refine ⟨returnsOf_length closes, fun i h => returnsOf_getD closes i h, ?_, ?_, ?_⟩
  · rw [equityOf, List.length_scanl, returnsOf_length]
    omega
  · rw [equityOf]
    exact scanl_getD_zero _ _ _
  · intro i h
    rw [equityOf, List.length_scanl] at h
    exact scanl_getD_succ _ _ _ i (by omega)

/-- Witness for `C7_returns_equity` on the series `[100, 90, 99]`. -/
theorem C7_witness :
    (returnsOf [(100 : ℝ), 90, 99]).length = 2 ∧
    (returnsOf [(100 : ℝ), 90, 99]).getD 0 0 = 90 / 100 - 1 := by
  obtain ⟨hlen, hget, -, -, -⟩ := C7_returns_equity [(100 : ℝ), 90, 99]
    (by simp)
    (by intro c hc; simp only [List.mem_cons, List.not_mem_nil, or_false] at hc
        rcases hc with rfl | rfl | rfl <;> norm_num)
  refine ⟨by simpa using hlen, ?_⟩
  have := hget 0 (by simp)
  simpa using this

theorem returnsOf_one_add_pos : ∀ l : List ℝ, (∀ c ∈ l, 0 < c) →
    ∀ r ∈ returnsOf l, 0 < 1 + r
  | [], _, r, hr => absurd hr (List.not_mem_nil r)
  | [_], _, r, hr => absurd hr (List.not_mem_nil r)
  | a :: b :: rest, hpos, r, hr => by
    rw [returnsOf] at hr
    rcases List.mem_cons.mp hr with rfl | hr
    · have ha : 0 < a := hpos a (List.mem_cons_self a _)
      have hb : 0 < b := hpos b (List.mem_cons_of_mem a (List.mem_cons_self b _))
      have h1 : 1 + (b / a - 1) = b / a := by ring
      rw [h1]
      exact div_pos hb ha
    · exact returnsOf_one_add_pos (b :: rest)
        (fun c hc => hpos c (List.mem_cons_of_mem a hc)) r hr

theorem scanl_mul_pos : ∀ (l : List ℝ) (b : ℝ), 0 < b → (∀ r ∈ l, 0 < 1 + r) →
    ∀ e ∈ List.scanl (fun e r => e * (1 + r)) b l, 0 < e
  | [], b, hb, _, e, he => by
    rw [List.scanl_nil] at he
    rwa [(by simpa using he : e = b)]
  | a :: t, b, hb, hl, e, he => by
    rw [List.scanl_cons] at he
    rcases List.mem_cons.mp (by simpa using he) with rfl | he
    · exact hb
    · exact scanl_mul_pos t (b * (1 + a))
        (mul_pos hb (hl a (List.mem_cons_self a t)))
        (fun r hr => hl r (List.mem_cons_of_mem a hr)) e he

theorem equityOf_pos (closes : List ℝ) (hpos : ∀ c ∈ closes, 0 < c) :
    ∀ e ∈ equityOf closes, 0 < e :=
  scanl_mul_pos (returnsOf closes) 1 one_pos (returnsOf_one_add_pos closes hpos)

theorem peaksOf_length : ∀ eq : List ℝ, (peaksOf eq).length = eq.length
  | [] => rfl
  | _ :: rest => by rw [peaksOf, List.length_scanl, List.length_cons]

theorem peaksOf_mem_of_mem : ∀ (eq : List ℝ) (p : ℝ), p ∈ peaksOf eq → p ∈ eq := by
  have haux : ∀ (l : List ℝ) (b : ℝ) (p : ℝ),
      p ∈ List.scanl (fun p e => max p e) b l → p = b ∨ p ∈ l := by
    intro l
    induction l with
    | nil =>
      intro b p hp
      rw [List.scanl_nil] at hp
      exact Or.inl (by simpa using hp)
    | cons a t ih =>
      intro b p hp
      rw [List.scanl_cons] at hp
      rcases List.mem_cons.mp (by simpa using hp) with rfl | hp
      · exact Or.inl rfl
      · rcases ih (max b a) p hp with hmax | hmem
        · rcases max_choice b a with hba | hba
          · exact Or.inl (hmax.trans hba)
          · exact Or.inr (hmax.trans hba ▸ List.mem_cons_self a t)
        · exact Or.inr (List.mem_cons_of_mem a hmem)
  intro eq p hp
  cases eq with
  | nil => simpa [peaksOf] using hp
  | cons e0 rest =>
    rw [peaksOf] at hp
    rcases haux rest e0 p hp with rfl | hmem
    · exact List.mem_cons_self p rest
    · exact List.mem_cons_of_mem e0 hmem

/-- Index-wise running-max property of the `scanl max` fold. -/
theorem scanl_max_getD_spec : ∀ (l : List ℝ) (b : ℝ) (i : ℕ), i < l.length + 1 →
    ((List.scanl (fun p e => max p e) b l).getD i 0 ∈ (b :: l).take (i + 1) ∧
      ∀ x ∈ (b :: l).take (i + 1), x ≤ (List.scanl (fun p e => max p e) b l).getD i 0)
  | l, b, 0, _ => by
    rw [scanl_getD_zero]
    simp
  | [], _, i + 1, h => by simp at h
  | a :: l, b, i + 1, h => by
    rw [List.scanl_cons]
    simp only [List.singleton_append, List.getD_cons_succ, List.take_succ_cons]
    obtain ⟨ihmem, ihub⟩ := scanl_max_getD_spec l (max b a) i (by simpa using h)
    rw [List.take_succ_cons] at ihmem ihub
    constructor
    · rcases List.mem_cons.mp ihmem with hval | hval
      · rcases max_choice b a with hba | hba
        · rw [hval, hba]
          exact List.mem_cons_self b _
        · rw [hval, hba]
          exact List.mem_cons_of_mem b (List.mem_cons_self a _)
      · exact List.mem_cons_of_mem b (List.mem_cons_of_mem a hval)
    · intro x hx
      rcases List.mem_cons.mp hx with rfl | hx
      · exact (le_max_left x a).trans (ihub (max x a) (List.mem_cons_self _ _))
      · rcases List.mem_cons.mp hx with rfl | hx
        · exact (le_max_right b x).trans (ihub (max b x) (List.mem_cons_self _ _))
        · exact ihub x (List.mem_cons_of_mem _ hx)

theorem peaksOf_getD_spec (eq : List ℝ) (i : ℕ) (h : i < eq.length) :
    (peaksOf eq).getD i 0 ∈ eq.take (i + 1) ∧
      ∀ x ∈ eq.take (i + 1), x ≤ (peaksOf eq).getD i 0 := by
  cases eq with
  | nil => simp at h
  | cons e0 rest =>
    rw [peaksOf]
    exact scanl_max_getD_spec rest e0 i (by simpa using h)

theorem drawdownOf_length (eq : List ℝ) : (drawdownOf eq).length = eq.length := by
  rw [drawdownOf, List.length_map, List.length_zip, peaksOf_length, min_self]

theorem drawdownOf_getD (eq : List ℝ) (i : ℕ) (h : i < eq.length) :
    (drawdownOf eq).getD i 0 = eq.getD i 0 / (peaksOf eq).getD i 0 - 1 := by
  have hzip : i < (eq.zip (peaksOf eq)).length := by
    rw [List.length_zip, peaksOf_length, min_self]
    exact h
  have hp : i < (peaksOf eq).length := by rw [peaksOf_length]; exact h
  rw [drawdownOf, List.getD_eq_getElem _ _ (by rw [List.length_map]; exact hzip),
    List.getElem_map, List.getElem_zip, List.getD_eq_getElem _ _ h,
    List.getD_eq_getElem _ _ hp]

theorem foldl_min_mem : ∀ (l : List ℝ) (a : ℝ), l.foldl min a ∈ a :: l
  | [], a => by simp
  | b :: t, a => by
    rw [List.foldl_cons]
    rcases List.mem_cons.mp (foldl_min_mem t (min a b)) with hval | hval
    · rcases min_choice a b with hab | hab
      · rw [hval, hab]
        exact List.mem_cons_self a _
      · rw [hval, hab]
        exact List.mem_cons_of_mem a (List.mem_cons_self b t)
    · exact List.mem_cons_of_mem a (List.mem_cons_of_mem b hval)

theorem foldl_min_le : ∀ (l : List ℝ) (a : ℝ),
    l.foldl min a ≤ a ∧ ∀ x ∈ l, l.foldl min a ≤ x
  | [], a => ⟨le_rfl, by simp⟩
  | b :: t, a => by
    obtain ⟨h1, h2⟩ := foldl_min_le t (min a b)
    rw [List.foldl_cons]
    refine ⟨h1.trans (min_le_left a b), fun x hx => ?_⟩
    rcases List.mem_cons.mp hx with rfl | hx
    · exact h1.trans (min_le_right a x)
    · exact h2 x hx

/-- C8: each drawdown value is `equity[i]/peak[i] - 1 ≤ 0` with `peak[i]` the
running maximum of `equity[0..i]`, and `maxDD` is the minimum drawdown, hence
`≤ 0` (it is attained by some drawdown entry). -/
theorem C8_drawdown (closes : List ℝ) (h2 : 2 ≤ closes.length)
    (hpos : ∀ c ∈ closes, 0 < c) :
    (∀ i : ℕ, i < (equityOf closes).length →
      (drawdownOf (equityOf closes)).getD i 0 =
          (equityOf closes).getD i 0 / (peaksOf (equityOf closes)).getD i 0 - 1 ∧
        (peaksOf (equityOf closes)).getD i 0 ∈ (equityOf closes).take (i + 1) ∧
        (∀ x ∈ (equityOf closes).take (i + 1),
          x ≤ (peaksOf (equityOf closes)).getD i 0) ∧
        (drawdownOf (equityOf closes)).getD i 0 ≤ 0) ∧
    (∀ d ∈ drawdownOf (equityOf closes), d ≤ 0) ∧
    maxDDOf closes ≤ 0 ∧
    (∀ d ∈ drawdownOf (equityOf closes), maxDDOf closes ≤ d) ∧
    maxDDOf closes ∈ drawdownOf (equityOf closes) := by
  set eq := equityOf closes with heq
  have heqpos : ∀ e ∈ eq, 0 < e := equityOf_pos closes hpos
  have hdd_le : ∀ i : ℕ, i < eq.length → (drawdownOf eq).getD i 0 ≤ 0 := by
    intro i hi
    rw [drawdownOf_getD eq i hi]
    obtain ⟨hpmem, hub⟩ := peaksOf_getD_spec eq i hi
    have hlen2 : i < (eq.take (i + 1)).length := by
      rw [List.length_take]
      omega
    have hgetm : eq.getD i 0 ∈ eq.take (i + 1) := by
      have hh : eq.getD i 0 = (eq.take (i + 1)).get ⟨i, hlen2⟩ := by
        rw [List.getD_eq_getElem _ _ hi, List.get_eq_getElem, List.getElem_take]
      rw [hh]
      exact List.get_mem _ _ hlen2
    have hple : eq.getD i 0 ≤ (peaksOf eq).getD i 0 := hub _ hgetm
    have hppos : 0 < (peaksOf eq).getD i 0 := by
      apply heqpos
      apply peaksOf_mem_of_mem
      rw [List.getD_eq_getElem _ _ (by rw [peaksOf_length]; exact hi)]
      exact List.getElem_mem _
    have := (div_le_one hppos).mpr hple
    linarith
  have hdd_mem_le : ∀ d ∈ drawdownOf eq, d ≤ 0 := by
    intro d hd
    obtain ⟨i, hi, hdi⟩ := List.getElem_of_mem hd
    have hi' : i < eq.length := by rwa [drawdownOf_length] at hi
    rw [← hdi, ← List.getD_eq_getElem _ 0 hi]
    exact hdd_le i hi'
  refine ⟨?_, hdd_mem_le, ?_, ?_, ?_⟩
  · intro i hi
    exact ⟨drawdownOf_getD eq i hi, (peaksOf_getD_spec eq i hi).1,
      (peaksOf_getD_spec eq i hi).2, hdd_le i hi⟩
  · rw [maxDDOf, ← heq]
    exact (foldl_min_le (drawdownOf eq) 0).1
  · intro d hd
    rw [maxDDOf, ← heq]
    exact (foldl_min_le (drawdownOf eq) 0).2 d hd
  · have heqlen : 1 ≤ eq.length := by
      rw [heq, equityOf, List.length_scanl]
      omega
    have hddlen : 0 < (drawdownOf eq).length := by
      rw [drawdownOf_length]
      omega
    have hdd0 : (drawdownOf eq).getD 0 0 = 0 := by
      rw [drawdownOf_getD eq 0 (by omega)]
      have he0 : eq.getD 0 0 = 1 := by
        rw [heq, equityOf]
        exact scanl_getD_zero _ _ _
      have hp0 : (peaksOf eq).getD 0 0 = eq.getD 0 0 := by
        cases heq2 : eq with
        | nil =>
          rw [heq2] at heqlen
          simp at heqlen
        | cons e0 rest =>
          rw [peaksOf, scanl_getD_zero]
          rfl
      rw [hp0, he0]
      norm_num
    have h0mem : (0 : ℝ) ∈ drawdownOf eq := by
      rw [← hdd0]
      rw [List.getD_eq_getElem _ _ (by omega)]
      exact List.getElem_mem _
    rcases List.mem_cons.mp (foldl_min_mem (drawdownOf eq) 0) with hval | hval
    · rw [maxDDOf, ← heq, hval]
      exact h0mem
    · rw [maxDDOf, ← heq]
      exact hval

/-- Witness for `C8_drawdown` on the series `[100, 90, 99]`. -/
theorem C8_witness :
    maxDDOf [(100 : ℝ), 90, 99] ≤ 0 ∧
      ∀ d ∈ drawdownOf (equityOf [(100 : ℝ), 90, 99]), d ≤ 0 := by
  obtain ⟨-, hall, hmax, -, -⟩ := C8_drawdown [(100 : ℝ), 90, 99] (by simp)
    (by intro c hc
        simp only [List.mem_cons, List.not_mem_nil, or_false] at hc
        rcases hc with rfl | rfl | rfl <;> norm_num)
  exact ⟨hmax, hall⟩

/-! ### Pain score (claim C3) -/

theorem jsClamp_mem_Icc {x lo hi : ℝ} (h : lo ≤ hi) :
    lo ≤ jsClamp x lo hi ∧ jsClamp x lo hi ≤ hi :=
  ⟨le_max_left _ _, max_le h (min_le_left _ _)⟩

/-- C3: `analyze` computes `depth = clamp(|maxDD|/0.60, 0, 1)`,
`length = clamp(maxDdDuration/252, 0, 1)`, `jitter = clamp(dailyVol/0.03, 0, 1)`
(`0` when `dailyVol` is not applicable), and
`painScore = round(100 * (0.55 depth + 0.30 length + 0.15 jitter))`, an
integer in `[0, 100]`. -/
theorem C3_pain_score (closes : List ℝ) (h2 : 2 ≤ closes.length) :
    painScoreOf closes =
      jsRound (100 * (0.55 * jsClamp (|maxDDOf closes| / 0.60) 0 1 +
        0.30 * jsClamp ((maxDdDurationOf (equityOf closes) : ℝ) / 252) 0 1 +
        0.15 * jitterOf closes)) ∧
    (dailyVolOf closes = none → jitterOf closes = 0) ∧
    (∀ v, dailyVolOf closes = some v → jitterOf closes = jsClamp (v / 0.03) 0 1) ∧
    0 ≤ painScoreOf closes ∧ painScoreOf closes ≤ 100 := by
  have hj : 0 ≤ jitterOf closes ∧ jitterOf closes ≤ 1 := by
    rw [jitterOf]
    cases dailyVolOf closes with
    | none => norm_num
    | some v => exact jsClamp_mem_Icc (by norm_num)
  have hd : 0 ≤ depthOf closes ∧ depthOf closes ≤ 1 := jsClamp_mem_Icc (by norm_num)
  have hl : 0 ≤ lengthScoreOf closes ∧ lengthScoreOf closes ≤ 1 :=
    jsClamp_mem_Icc (by norm_num)
  refine ⟨rfl, ?_, ?_, ?_, ?_⟩
  · intro hnone
    rw [jitterOf, hnone]
  · intro v hv
    rw [jitterOf, hv]
  · rw [painScoreOf, jsRound]
    apply Int.floor_nonneg.mpr
    obtain ⟨hd0, _⟩ := hd
    obtain ⟨hl0, _⟩ := hl
    obtain ⟨hj0, _⟩ := hj
    linarith
  · rw [painScoreOf, jsRound]
    obtain ⟨_, hd1⟩ := hd
    obtain ⟨_, hl1⟩ := hl
    obtain ⟨_, hj1⟩ := hj
    have hlt : ⌊100 * (0.55 * depthOf closes + 0.30 * lengthScoreOf closes +
        0.15 * jitterOf closes) + 1 / 2⌋ < (101 : ℤ) := by
      apply Int.floor_lt.mpr
      push_cast
      linarith
    omega

/-- Witness for `C3_pain_score` on the series `[100, 90]`. -/
theorem C3_witness :
    0 ≤ painScoreOf [(100 : ℝ), 90] ∧ painScoreOf [(100 : ℝ), 90] ≤ 100 := by
  obtain ⟨-, -, -, h0, h100⟩ := C3_pain_score [(100 : ℝ), 90] (by simp)
  exact ⟨h0, h100⟩

/-! ### Scenario evaluator materiality guard (claim C5) -/

/-- C5, counterexample: in the `pages/leaps-scenario.js` variant, a contract
whose implied volatility parses to `0.0001 < 0.0005` is still priced — the
memo returns a result whose `ivUsed` is `0.0001` and whose `theoPrice` is the
near-zero-volatility Black-Scholes value, instead of declining as the claim
requires. -/
theorem C5_counterexample :
    (scenarioEval (some 0) (some 0) 365 (some 100) (some 100) (some 0) (some 0)
        (some (0.0001 : ℝ)) (some 0) none OptType.call).map ScenarioResult.ivUsed =
      Except.ok 0.0001 ∧
    ((0.0001 : ℝ)) < 0.0005 ∧
    (scenarioEval (some 0) (some 0) 365 (some 100) (some 100) (some 0) (some 0)
        (some (0.0001 : ℝ)) (some 0) none OptType.call).map ScenarioResult.theoPrice =
      Except.ok (bsPrice 100 100 1 0 0 0.0001 OptType.call) := by
  have hsig : max (0 : ℝ) (0.0001 + 0) = 0.0001 := by
    rw [max_eq_right]
    · norm_num
    · norm_num
  have hT : max (0 : ℝ) ((365 - ((0 : ℤ) : ℝ)) / 365) = 1 := by
    rw [max_eq_right] <;> norm_num
  constructor
  · simp only [scenarioEval]
    rw [if_neg (by norm_num), if_neg (by norm_num), if_neg (by norm_num)]
    simp only [Except.map, hsig]
  · refine ⟨by norm_num, ?_⟩
    simp only [scenarioEval]
    rw [if_neg (by norm_num), if_neg (by norm_num), if_neg (by norm_num)]
    simp only [Except.map, hsig, hT]

/-- C5 (amended): the two halves of the claim hold in different variants of
the scenario evaluator.  In `pages/leaps-scenario.js`, `ivUsed` is
`max(0, baseIV + ivShift)` but the evaluator prices even below the 0.0005
threshold (the counterexample); the materiality guard lives in the
`src/unnamed/part_003` variant, whose `theo` memo declines to price
(returns `null`) whenever `max(0, baseIV + ivShift) < 0.0005` — indeed
whenever `baseIV + ivShift ≤ 0.0005`. -/
theorem C5_amended_iv_guard :
    (∀ (cur scen : Option ℤ) (expDay : ℝ)
        (spot strike rate divYield iv0 ivShift premium : Option ℝ)
        (side : OptType) (out : ScenarioResult) (iv shift : ℝ),
      iv0 = some iv → ivShift = some shift →
      scenarioEval cur scen expDay spot strike rate divYield iv0 ivShift premium side =
        Except.ok out →
      out.ivUsed = max 0 (iv + shift)) ∧
    (∀ (scenarioS strike r qIn shiftIn baseIv : Option ℝ) (T : Option ℝ) (isCall : Bool),
      max 0 (baseIv.getD 0 + shiftIn.getD 0) < 0.0005 →
      theoP3 scenarioS strike r qIn shiftIn baseIv T isCall = none) := by
  constructor
  · intro cur scen expDay spot strike rate divYield iv0 ivShift premium side out iv shift
      hiv hshift hc
    unfold scenarioEval at hc
    dsimp only at hc
    repeat' split at hc
    all_goals simp_all
    all_goals rw [← hc]
  · intro scenarioS strike r qIn shiftIn baseIv T isCall h
    cases T with
    | none => rfl
    | some t =>
      simp only [theoP3]
      split
      · rfl
      · rcases scenarioS with _ | S
        · rfl
        · rcases strike with _ | K
          · rfl
          · rcases r with _ | rr
            · rfl
            · rcases baseIv with _ | iv0
              · rfl
              · have hle : iv0 + shiftIn.getD 0 ≤ max 0 ((some iv0).getD 0 + shiftIn.getD 0) := by
                  simp
                dsimp only
                rw [if_neg (not_lt.mpr (lt_of_le_of_lt hle h).le)]

/-- The result record of the `pages` scenario evaluator at the concrete
witness input of `C5_amended_witness`. -/
noncomputable def scenOut : ScenarioResult :=
  { S := 100, K := 100, T := 1, ivUsed := 1,
    theoPrice := bsPrice 100 100 1 0 0 1 OptType.call, pnl := none }

/-- Witness for `C5_amended_iv_guard`: the `pages` evaluator reports
`ivUsed = max(0, 1 + 0)` at a concrete accepted call, and the `part_003`
evaluator declines at implied volatility `0.0001`. -/
theorem C5_amended_witness :
    scenOut.ivUsed = max 0 (1 + 0) ∧
    theoP3 (some 100) (some 100) (some 0) (some 0) (some 0) (some (0.0001 : ℝ))
      (some 1) true = none := by
  have hc : scenarioEval (some 0) (some 0) 365 (some 100) (some 100) (some 0) (some 0)
      (some 1) (some 0) none OptType.call = Except.ok scenOut := by
    simp only [scenarioEval, scenOut]
    rw [if_neg (by norm_num), if_neg (by norm_num), if_neg (by norm_num)]
    have h1 : max (0 : ℝ) (1 + 0) = 1 := by rw [max_eq_right] <;> norm_num
    have h2 : max (0 : ℝ) ((365 - ((0 : ℤ) : ℝ)) / 365) = 1 := by
      rw [max_eq_right] <;> norm_num
    simp only [h1, h2]
  refine ⟨C5_amended_iv_guard.1 (some 0) (some 0) 365 (some 100) (some 100) (some 0)
    (some 0) (some 1) (some 0) none OptType.call scenOut 1 0 rfl rfl hc, ?_⟩
  exact C5_amended_iv_guard.2 (some 100) (some 100) (some 0) (some 0) (some 0)
    (some (0.0001 : ℝ)) (some 1) true
    (by rw [show ((some (0.0001 : ℝ)).getD 0 + (some (0 : ℝ)).getD 0) = 0.0001 by simp]
        exact max_lt (by norm_num) (by norm_num))

/-! ### Quantile lemmas (claim C9) -/

theorem jsSorted_sorted (l : List ℚ) : (jsSorted l).Sorted (· ≤ ·) :=
  List.sorted_insertionSort _ _

theorem jsSorted_length (l : List ℚ) : (jsSorted l).length = l.length :=
  (List.perm_insertionSort _ _).length_eq

theorem jsSorted_eq_self {l : List ℚ} (hs : l.Sorted (· ≤ ·)) : jsSorted l = l :=
  List.eq_of_perm_of_sorted (List.perm_insertionSort _ _) (jsSorted_sorted l) hs

theorem jsIndex_of_lt (l : List ℚ) (i : ℤ) (h0 : 0 ≤ i) (h : i.toNat < l.length) :
    jsIndex l i = some (l.getD i.toNat 0) := by
  rw [jsIndex, if_pos h0, List.getElem?_eq_getElem h, List.getD_eq_getElem _ _ h]

theorem jsIndex_of_ge (l : List ℚ) (i : ℤ) (h0 : 0 ≤ i) (h : l.length ≤ i.toNat) :
    jsIndex l i = none := by
  rw [jsIndex, if_pos h0, List.getElem?_eq_none h]

/-- The linear interpolation `a[⌊pos⌋] + (pos - ⌊pos⌋)·(a[⌊pos⌋+1] - a[⌊pos⌋])`
both quantile implementations compute at `pos = (n-1)·q`; when `⌊pos⌋+1` is
out of range the second term vanishes. -/
def interpAt (a : List ℚ) (pos : ℚ) : ℚ :=
  let k := (⌊pos⌋).toNat
  a.getD k 0 + (pos - (k : ℚ)) * (a.getD (k + 1) (a.getD k 0) - a.getD k 0)

theorem floor_toNat_facts (a : List ℚ) (pos : ℚ) (h0 : 0 ≤ pos)
    (h1 : pos ≤ (a.length : ℚ) - 1) :
    ((⌊pos⌋.toNat : ℚ) ≤ pos ∧ pos < (⌊pos⌋.toNat : ℚ) + 1) ∧ ⌊pos⌋.toNat < a.length := by
  have hf0 : 0 ≤ ⌊pos⌋ := Int.floor_nonneg.mpr h0
  have hcast : ((⌊pos⌋.toNat : ℤ) : ℚ) = ((⌊pos⌋ : ℤ) : ℚ) := by
    rw [Int.toNat_of_nonneg hf0]
  have hle : (⌊pos⌋.toNat : ℚ) ≤ pos := by
    rw [show ((⌊pos⌋.toNat : ℕ) : ℚ) = ((⌊pos⌋.toNat : ℤ) : ℚ) by push_cast; ring, hcast]
    exact Int.floor_le pos
  have hlt : pos < (⌊pos⌋.toNat : ℚ) + 1 := by
    rw [show ((⌊pos⌋.toNat : ℕ) : ℚ) = ((⌊pos⌋.toNat : ℤ) : ℚ) by push_cast; ring, hcast]
    exact Int.lt_floor_add_one pos
  have hn1 : 1 ≤ a.length := by
    by_contra hcon
    have : a.length = 0 := by omega
    rw [this] at h1
    norm_num at h1
    linarith
  have hfl : ⌊pos⌋ ≤ (a.length : ℤ) - 1 := by
    have := Int.floor_le_floor h1
    rwa [show ((a.length : ℚ) - 1) = (((a.length : ℤ) - 1 : ℤ) : ℚ) by push_cast; ring,
      Int.floor_intCast] at this
  have hk : ⌊pos⌋.toNat < a.length := by omega
  exact ⟨⟨hle, hlt⟩, hk⟩

theorem quantile_eq_interpAt (arr : List ℚ) (hne : arr ≠ []) (q : ℚ)
    (h0 : 0 ≤ q) (h1 : q ≤ 1) :
    quantile arr q = some (interpAt (jsSorted arr) (((arr.length : ℚ) - 1) * q)) := by
  have hlen : (jsSorted arr).length = arr.length := jsSorted_length arr
  have hn1 : 1 ≤ arr.length := by
    cases arr with
    | nil => exact absurd rfl hne
    | cons a t => simp
  set a := jsSorted arr with ha
  set pos : ℚ := ((arr.length : ℚ) - 1) * q with hpos
  have hp0 : 0 ≤ pos := by
    apply mul_nonneg _ h0
    have : (1 : ℚ) ≤ (arr.length : ℚ) := by exact_mod_cast hn1
    linarith
  have hp1 : pos ≤ (a.length : ℚ) - 1 := by
    rw [hlen]
    calc ((arr.length : ℚ) - 1) * q ≤ ((arr.length : ℚ) - 1) * 1 := by
          apply mul_le_mul_of_nonneg_left h1
          have : (1 : ℚ) ≤ (arr.length : ℚ) := by exact_mod_cast hn1
          linarith
      _ = (arr.length : ℚ) - 1 := mul_one _
  obtain ⟨⟨hkle, hklt⟩, hk⟩ := floor_toNat_facts a pos hp0 hp1
  have hf0 : 0 ≤ ⌊pos⌋ := Int.floor_nonneg.mpr hp0
  have htn : (⌊pos⌋ + 1).toNat = ⌊pos⌋.toNat + 1 := by omega
  rw [quantile]
  rw [if_neg (by simpa [List.isEmpty_iff] using hne)]
  simp only [← ha, hlen]
  rw [show ((arr.length : ℚ) - 1) * q = pos from rfl]
  by_cases hcase : ⌊pos⌋.toNat + 1 < a.length
  · rw [jsIndex_of_lt a (⌊pos⌋ + 1) (by omega) (by rw [htn]; exact hcase)]
    rw [jsIndex_of_lt a ⌊pos⌋ hf0 hk]
    dsimp only
    rw [Option.map_some']
    congr 1
    rw [interpAt]
    have hgd : a.getD (⌊pos⌋.toNat + 1) (a.getD ⌊pos⌋.toNat 0) =
        a.getD (⌊pos⌋.toNat + 1) 0 := by
      rw [List.getD_eq_getElem _ _ hcase, List.getD_eq_getElem _ _ hcase]
    rw [htn, hgd]
    have hc : ((⌊pos⌋.toNat : ℕ) : ℚ) = ((⌊pos⌋ : ℤ) : ℚ) := by
      exact_mod_cast Int.toNat_of_nonneg hf0
    rw [hc]
  · rw [jsIndex_of_ge a (⌊pos⌋ + 1) (by omega) (by omega)]
    rw [jsIndex_of_lt a ⌊pos⌋ hf0 hk]
    dsimp only
    congr 1
    rw [interpAt]
    have hgd : a.getD (⌊pos⌋.toNat + 1) (a.getD ⌊pos⌋.toNat 0) = a.getD ⌊pos⌋.toNat 0 := by
      apply List.getD_eq_default
      omega
    rw [hgd]
    ring

theorem sorted_getD_mono {a : List ℚ} (hs : a.Sorted (· ≤ ·)) {i j : ℕ}
    (hij : i ≤ j) (hj : j < a.length) : a.getD i 0 ≤ a.getD j 0 := by
  rcases Nat.eq_or_lt_of_le hij with rfl | hlt
  · exact le_rfl
  · rw [List.getD_eq_getElem _ _ (lt_trans hlt hj), List.getD_eq_getElem _ _ hj]
    have := hs.rel_get_of_lt (a := ⟨i, lt_trans hlt hj⟩) (b := ⟨j, hj⟩)
      (Fin.mk_lt_mk.mpr hlt)
    simpa using this

theorem interpAt_mono (a : List ℚ) (hs : a.Sorted (· ≤ ·)) (pos1 pos2 : ℚ)
    (hp0 : 0 ≤ pos1) (h12 : pos1 ≤ pos2) (hp2 : pos2 ≤ (a.length : ℚ) - 1) :
    interpAt a pos1 ≤ interpAt a pos2 := by
  obtain ⟨⟨hk1le, hk1lt⟩, hk1⟩ := floor_toNat_facts a pos1 hp0 (le_trans h12 hp2)
  obtain ⟨⟨hk2le, hk2lt⟩, hk2⟩ := floor_toNat_facts a pos2 (le_trans hp0 h12) hp2
  have hkk : ⌊pos1⌋.toNat ≤ ⌊pos2⌋.toNat := by
    have := Int.floor_le_floor h12
    omega
  rcases Nat.eq_or_lt_of_le hkk with heq | hlt
  · rw [interpAt, interpAt, ← heq]
    have hD0 : 0 ≤ a.getD (⌊pos1⌋.toNat + 1) (a.getD ⌊pos1⌋.toNat 0) -
        a.getD ⌊pos1⌋.toNat 0 := by
      by_cases hin : ⌊pos1⌋.toNat + 1 < a.length
      · have hdef : a.getD (⌊pos1⌋.toNat + 1) (a.getD ⌊pos1⌋.toNat 0) =
            a.getD (⌊pos1⌋.toNat + 1) 0 := by
          rw [List.getD_eq_getElem _ _ hin, List.getD_eq_getElem _ _ hin]
        rw [hdef]
        have := sorted_getD_mono hs (Nat.le_succ ⌊pos1⌋.toNat) hin
        linarith
      · rw [List.getD_eq_default _ _ (by omega)]
        linarith
    nlinarith [mul_le_mul_of_nonneg_right h12 hD0]
  · have hin1 : ⌊pos1⌋.toNat + 1 < a.length := by omega
    have hub1 : interpAt a pos1 ≤ a.getD (⌊pos1⌋.toNat + 1) 0 := by
      rw [interpAt]
      have hdef : a.getD (⌊pos1⌋.toNat + 1) (a.getD ⌊pos1⌋.toNat 0) =
          a.getD (⌊pos1⌋.toNat + 1) 0 := by
        rw [List.getD_eq_getElem _ _ hin1, List.getD_eq_getElem _ _ hin1]
      rw [hdef]
      have hadj : a.getD ⌊pos1⌋.toNat 0 ≤ a.getD (⌊pos1⌋.toNat + 1) 0 :=
        sorted_getD_mono hs (Nat.le_succ _) hin1
      nlinarith
    have hmid : a.getD (⌊pos1⌋.toNat + 1) 0 ≤ a.getD ⌊pos2⌋.toNat 0 :=
      sorted_getD_mono hs (by omega) hk2
    have hlb2 : a.getD ⌊pos2⌋.toNat 0 ≤ interpAt a pos2 := by
      rw [interpAt]
      by_cases hin : ⌊pos2⌋.toNat + 1 < a.length
      · have hdef : a.getD (⌊pos2⌋.toNat + 1) (a.getD ⌊pos2⌋.toNat 0) =
            a.getD (⌊pos2⌋.toNat + 1) 0 := by
          rw [List.getD_eq_getElem _ _ hin, List.getD_eq_getElem _ _ hin]
        rw [hdef]
        have hadj : a.getD ⌊pos2⌋.toNat 0 ≤ a.getD (⌊pos2⌋.toNat + 1) 0 :=
          sorted_getD_mono hs (Nat.le_succ _) hin
        nlinarith
      · rw [show a.getD (⌊pos2⌋.toNat + 1) (a.getD ⌊pos2⌋.toNat 0) =
            a.getD ⌊pos2⌋.toNat 0 from List.getD_eq_default _ _ (by omega)]
        nlinarith
    linarith

theorem quantile_median (arr : List ℚ) (hne : arr ≠ []) :
    quantile arr (1 / 2) = conventionalMedian arr := by
  have hn1 : 1 ≤ arr.length := List.length_pos.mpr hne
  rw [quantile_eq_interpAt arr hne (1 / 2) (by norm_num) (by norm_num)]
  have hlen : (jsSorted arr).length = arr.length := jsSorted_length arr
  set a := jsSorted arr with ha
  rw [conventionalMedian]
  simp only [← ha, hlen]
  rw [if_neg (by omega)]
  rcases Nat.even_or_odd arr.length with ⟨m, hm⟩ | ⟨m, hm⟩
  · -- even length `m + m`, median of the two middle elements
    have hm1 : 1 ≤ m := by omega
    rw [if_neg (by omega)]
    have hposv : ((arr.length : ℚ) - 1) * (1 / 2) = (m : ℚ) - 1 / 2 := by
      rw [hm]
      push_cast
      ring
    rw [hposv]
    have hfl : ⌊(m : ℚ) - 1 / 2⌋ = (m : ℤ) - 1 := by
      rw [Int.floor_eq_iff]
      push_cast
      constructor <;> linarith
    have htn : ⌊(m : ℚ) - 1 / 2⌋.toNat = m - 1 := by
      rw [hfl]
      omega
    have hmlt : m < a.length := by omega
    have hm1lt : m - 1 < a.length := by omega
    have hsucc : m - 1 + 1 = m := by omega
    rw [interpAt, htn, hsucc]
    have hdef : a.getD m (a.getD (m - 1) 0) = a.getD m 0 := by
      rw [List.getD_eq_getElem _ _ hmlt, List.getD_eq_getElem _ _ hmlt]
    rw [hdef]
    rw [show arr.length / 2 = m by omega]
    rw [List.getElem?_eq_getElem hm1lt, List.getElem?_eq_getElem hmlt]
    simp only [Option.some_bind, Option.map_some']
    rw [← List.getD_eq_getElem a 0 hm1lt, ← List.getD_eq_getElem a 0 hmlt]
    congr 1
    have hcast : ((m - 1 : ℕ) : ℚ) = (m : ℚ) - 1 := by
      rw [Nat.cast_sub hm1]
      norm_num
    rw [hcast]
    ring
  · -- odd length `2 m + 1`, middle element
    rw [if_pos (by omega)]
    have hposv : ((arr.length : ℚ) - 1) * (1 / 2) = ((m : ℕ) : ℚ) := by
      rw [hm]
      push_cast
      ring
    rw [hposv]
    have htn : ⌊((m : ℕ) : ℚ)⌋.toNat = m := by
      rw [Int.floor_natCast]
      omega
    have hmlt : m < a.length := by omega
    rw [interpAt, htn]
    rw [show arr.length / 2 = m by omega]
    rw [List.getElem?_eq_getElem hmlt]
    rw [← List.getD_eq_getElem a 0 hmlt]
    congr 1
    ring

theorem quantileSorted_eq (arr : List ℚ) (hs : arr.Sorted (· ≤ ·)) (hne : arr ≠ [])
    (q : ℚ) (h0 : 0 ≤ q) (h1 : q ≤ 1) :
    quantileSorted arr q = quantile arr q := by
  rw [quantile_eq_interpAt arr hne q h0 h1, jsSorted_eq_self hs]
  have hn1 : 1 ≤ arr.length := List.length_pos.mpr hne
  have hone : (1 : ℚ) ≤ (arr.length : ℚ) := by exact_mod_cast hn1
  set pos : ℚ := ((arr.length : ℚ) - 1) * q with hposdef
  have hp0 : 0 ≤ pos := mul_nonneg (by linarith) h0
  have hp1 : pos ≤ (arr.length : ℚ) - 1 := by
    calc pos ≤ ((arr.length : ℚ) - 1) * 1 := mul_le_mul_of_nonneg_left h1 (by linarith)
      _ = (arr.length : ℚ) - 1 := mul_one _
  obtain ⟨⟨hkle, hklt⟩, hk⟩ := floor_toNat_facts arr pos hp0 hp1
  have hf0 : 0 ≤ ⌊pos⌋ := Int.floor_nonneg.mpr hp0
  rw [quantileSorted]
  rw [if_neg (by omega)]
  dsimp only
  rw [← hposdef]
  by_cases hint : ⌊pos⌋ = ⌈pos⌉
  · rw [if_pos hint]
    have hposint : (⌊pos⌋ : ℚ) = pos := by
      have h1' := Int.floor_le pos
      have h2' := Int.le_ceil pos
      rw [← hint] at h2'
      linarith
    rw [jsIndex_of_lt arr ⌊pos⌋ hf0 hk]
    congr 1
    rw [interpAt]
    have hcn : (⌊pos⌋.toNat : ℚ) = pos := by
      rw [show ((⌊pos⌋.toNat : ℕ) : ℚ) = ((⌊pos⌋ : ℤ) : ℚ) from
        by exact_mod_cast Int.toNat_of_nonneg hf0, hposint]
    rw [hcn]
    ring
  · rw [if_neg hint]
    have hceil : ⌈pos⌉ = ⌊pos⌋ + 1 := by
      have hle' := Int.ceil_le_floor_add_one pos
      have hlt' : ⌊pos⌋ < ⌈pos⌉ := lt_of_le_of_ne (Int.floor_le_ceil pos) hint
      omega
    have hne2 : pos ≠ (⌊pos⌋ : ℚ) := by
      intro hcon
      apply hint
      rw [hcon, Int.floor_intCast, Int.ceil_intCast]
    have hlt2 : pos < (arr.length : ℚ) - 1 := by
      rcases lt_or_eq_of_le hp1 with h | h
      · exact h
      · exfalso
        apply hne2
        have hfl2 : ⌊pos⌋ = (arr.length : ℤ) - 1 := by
          rw [h, show ((arr.length : ℚ) - 1) = (((arr.length : ℤ) - 1 : ℤ) : ℚ)
            by push_cast; ring, Int.floor_intCast]
        rw [hfl2, h]
        push_cast
        ring
    have hk1n : ⌊pos⌋.toNat + 1 < arr.length := by
      have hzlt : ⌊pos⌋ < (arr.length : ℤ) - 1 := by
        exact_mod_cast lt_of_le_of_lt (Int.floor_le pos) hlt2
      omega
    rw [hceil]
    rw [jsIndex_of_lt arr ⌊pos⌋ hf0 hk,
      jsIndex_of_lt arr (⌊pos⌋ + 1) (by omega) (by omega)]
    dsimp only
    congr 1
    rw [interpAt]
    have htn : (⌊pos⌋ + 1).toNat = ⌊pos⌋.toNat + 1 := by omega
    rw [htn]
    have hdef : arr.getD (⌊pos⌋.toNat + 1) (arr.getD ⌊pos⌋.toNat 0) =
        arr.getD (⌊pos⌋.toNat + 1) 0 := by
      rw [List.getD_eq_getElem _ _ hk1n, List.getD_eq_getElem _ _ hk1n]
    rw [hdef]
    have hc : ((⌊pos⌋.toNat : ℕ) : ℚ) = ((⌊pos⌋ : ℤ) : ℚ) := by
      exact_mod_cast Int.toNat_of_nonneg hf0
    rw [hc]
    ring

/-- C9: `quantile(arr, 0.5)` is the conventional median; for fixed `arr`,
`quantile(arr, q)` is non-decreasing in `q` on `[0, 1]`; and on a sorted
array the `leaps-sim.js` implementation `quantileSorted` agrees with it. -/
theorem C9_quantile_median_monotone (arr : List ℚ) (hne : arr ≠ []) :
    quantile arr (1 / 2) = conventionalMedian arr ∧
    (∀ q1 q2 v1 v2, 0 ≤ q1 → q1 ≤ q2 → q2 ≤ 1 →
      quantile arr q1 = some v1 → quantile arr q2 = some v2 → v1 ≤ v2) ∧
    (arr.Sorted (· ≤ ·) → ∀ q, 0 ≤ q → q ≤ 1 →
      quantileSorted arr q = quantile arr q) := by
  refine ⟨quantile_median arr hne, ?_,
    fun hs q h0 h1 => quantileSorted_eq arr hs hne q h0 h1⟩
  intro q1 q2 v1 v2 h0 h12 h21 hv1 hv2
  rw [quantile_eq_interpAt arr hne q1 h0 (le_trans h12 h21)] at hv1
  rw [quantile_eq_interpAt arr hne q2 (le_trans h0 h12) h21] at hv2
  have hn1 : 1 ≤ arr.length := List.length_pos.mpr hne
  have hone : (1 : ℚ) ≤ (arr.length : ℚ) := by exact_mod_cast hn1
  have hlen : (jsSorted arr).length = arr.length := jsSorted_length arr
  have hmono := interpAt_mono (jsSorted arr) (jsSorted_sorted arr)
    (((arr.length : ℚ) - 1) * q1) (((arr.length : ℚ) - 1) * q2)
    (mul_nonneg (by linarith) h0)
    (mul_le_mul_of_nonneg_left h12 (by linarith))
    (by rw [hlen]
        calc ((arr.length : ℚ) - 1) * q2 ≤ ((arr.length : ℚ) - 1) * 1 :=
              mul_le_mul_of_nonneg_left h21 (by linarith)
          _ = (arr.length : ℚ) - 1 := mul_one _)
  rw [Option.some_inj.mp hv1, Option.some_inj.mp hv2] at hmono
  exact hmono

/-- Witness for `C9_quantile_median_monotone` on the array `[3, 1, 2]`
(quantiles at `q = 0` and `q = 1` are the extremes `1 ≤ 3`). -/
theorem C9_witness :
    quantile [(3 : ℚ), 1, 2] (1 / 2) = conventionalMedian [(3 : ℚ), 1, 2] ∧
    (2 : ℚ) ≤ 2 := by
  have hmed := (C9_quantile_median_monotone [(3 : ℚ), 1, 2] (by decide)).1
  have hv : quantile [(3 : ℚ), 1, 2] (1 / 2) = some 2 := by
    rw [hmed]
    decide
  exact ⟨hmed, (C9_quantile_median_monotone [(3 : ℚ), 1, 2] (by decide)).2.1
    (1 / 2) (1 / 2) 2 2 (by norm_num) le_rfl (by norm_num) hv hv⟩

/-! ### Put-call parity (claim C2) -/

theorem normTail_neg (x : ℝ) : normTail (-x) = normTail x := by
  rw [normTail, normTail]
  simp [abs_neg, neg_mul_neg]

/-- For `x ≠ 0` the approximate CDF satisfies `N(x) + N(-x) = 1` exactly; at
`x = 0` both branches evaluate the tail, giving `2·normTail 0 ≠ 1`. -/
theorem normCdf_add_neg {x : ℝ} (hx : x ≠ 0) : normCdf x + normCdf (-x) = 1 := by
  rcases lt_or_gt_of_ne hx with hneg | hpos
  · rw [normCdf, normCdf, if_neg (not_lt.mpr hneg.le), if_pos (by linarith), normTail_neg]
    ring
  · rw [normCdf, normCdf, if_pos hpos, if_neg (by simp; linarith), normTail_neg]
    ring

theorem bsPrice_call_std (S K T r q sigma : ℝ) (hT : 0 < T) (hsig : 0 < sigma) :
    bsPrice S K T r q sigma OptType.call =
      S * Real.exp (-q * T) * normCdf (bsD1 S K T r q sigma) -
        K * Real.exp (-r * T) * normCdf (bsD1 S K T r q sigma - sigma * Real.sqrt T) := by
  rw [bsPrice, if_neg (not_le.mpr hT), if_neg (not_le.mpr hsig)]

theorem bsPrice_put_std (S K T r q sigma : ℝ) (hT : 0 < T) (hsig : 0 < sigma) :
    bsPrice S K T r q sigma OptType.put =
      K * Real.exp (-r * T) * normCdf (-(bsD1 S K T r q sigma - sigma * Real.sqrt T)) -
        S * Real.exp (-q * T) * normCdf (-bsD1 S K T r q sigma) := by
  rw [bsPrice, if_neg (not_le.mpr hT), if_neg (not_le.mpr hsig)]

/-- C2 (amended): put-call parity holds within 1e-6 — in fact exactly —
whenever `d1 ≠ 0` and `d2 ≠ 0`.  (At `d1 = 0` or `d2 = 0` the approximation
violates `N(x) + N(-x) = 1` by about `3.0e-7`, which scales with the
discounted stock or strike leg and can exceed the 1e-6 tolerance; see the
counterexample.) -/
theorem C2_amended_put_call_parity (S K T r q sigma : ℝ)
    (hT : 0 < T) (hsig : 0 < sigma)
    (hd1 : bsD1 S K T r q sigma ≠ 0)
    (hd2 : bsD1 S K T r q sigma - sigma * Real.sqrt T ≠ 0) :
    |bsPrice S K T r q sigma OptType.call - bsPrice S K T r q sigma OptType.put -
      (S * Real.exp (-q * T) - K * Real.exp (-r * T))| ≤ 1e-6 := by
  have h1 := normCdf_add_neg hd1
  have h2 := normCdf_add_neg hd2
  have hzero : bsPrice S K T r q sigma OptType.call - bsPrice S K T r q sigma OptType.put -
      (S * Real.exp (-q * T) - K * Real.exp (-r * T)) = 0 := by
    rw [bsPrice_call_std S K T r q sigma hT hsig, bsPrice_put_std S K T r q sigma hT hsig]
    linear_combination (S * Real.exp (-q * T)) * h1 - (K * Real.exp (-r * T)) * h2
  rw [hzero]
  norm_num

/-- C2, counterexample: at `S = K = 100`, `T = 1`, `r = 0`, `q = 1/32`,
`sigma = 1/4` we get `d1 = 0` exactly, and the parity defect is
`100·e^(-1/32)·(2·normTail 0 - 1) ≈ -2.9e-5`, far outside the claimed 1e-6
tolerance. -/
theorem C2_counterexample :
    1e-6 < |bsPrice 100 100 1 0 (1/32) (1/4) OptType.call -
      bsPrice 100 100 1 0 (1/32) (1/4) OptType.put -
      (100 * Real.exp (-(1/32) * 1) - 100 * Real.exp (-(0:ℝ) * 1))| := by
  have hd1 : bsD1 100 100 1 0 (1/32) (1/4) = 0 := by
    rw [bsD1]
    norm_num [Real.log_one, Real.sqrt_one]
  have htail0 : normTail 0 = 0.49999985009951 := by
    rw [normTail]
    norm_num [asPoly, Real.exp_zero]
  have hN0 : normCdf 0 = normTail 0 := by
    rw [normCdf, if_neg (by norm_num)]
  have hq : normCdf (1/4) + normCdf (-(1/4)) = 1 := normCdf_add_neg (by norm_num)
  have hcall := bsPrice_call_std 100 100 1 0 (1/32) (1/4) one_pos (by norm_num)
  have hput := bsPrice_put_std 100 100 1 0 (1/32) (1/4) one_pos (by norm_num)
  rw [hd1, Real.sqrt_one] at hcall hput
  have hd2v : (0 : ℝ) - 1/4 * 1 = -(1/4) := by norm_num
  rw [hd2v] at hcall hput
  rw [neg_neg] at hput
  have hcall2 : bsPrice 100 100 1 0 (1/32) (1/4) OptType.call =
      100 * Real.exp (-(1/32)) * normCdf 0 - 100 * Real.exp 0 * normCdf (-(1/4)) := by
    rw [hcall]
    norm_num
  have hput2 : bsPrice 100 100 1 0 (1/32) (1/4) OptType.put =
      100 * Real.exp 0 * normCdf (1/4) - 100 * Real.exp (-(1/32)) * normCdf 0 := by
    rw [hput]
    norm_num
  rw [show (-(1/32 : ℝ) * 1) = -(1/32) from by norm_num,
    show (-(0:ℝ) * 1) = 0 from by norm_num]
  have hkey : bsPrice 100 100 1 0 (1/32) (1/4) OptType.call -
      bsPrice 100 100 1 0 (1/32) (1/4) OptType.put -
      (100 * Real.exp (-(1/32)) - 100 * Real.exp 0) =
      100 * Real.exp (-(1/32)) * (2 * normTail 0 - 1) := by
    rw [hcall2, hput2, hN0]
    linear_combination (-(100 : ℝ) * Real.exp 0) * hq
  rw [hkey, htail0]
  have hconst : (2 * (0.49999985009951 : ℝ) - 1) = -0.00000029980098 := by norm_num
  rw [hconst]
  have hEpos : 0 < Real.exp (-(1/32) : ℝ) := Real.exp_pos _
  have hE1 : (31/32 : ℝ) ≤ Real.exp (-(1/32) : ℝ) := by
    have h := Real.add_one_le_exp (-(1/32) : ℝ)
    linarith
  rw [abs_of_neg (mul_neg_of_pos_of_neg (by positivity) (by norm_num))]
  nlinarith

/-- Witness for `C2_amended_put_call_parity` at `S = K = 100`, `T = 1`,
`r = 1`, `q = 0`, `sigma = 1` (there `d1 = 3/2` and `d2 = 1/2`). -/
theorem C2_amended_witness :
    |bsPrice 100 100 1 1 0 1 OptType.call - bsPrice 100 100 1 1 0 1 OptType.put -
      (100 * Real.exp (-(0:ℝ) * 1) - 100 * Real.exp (-(1:ℝ) * 1))| ≤ 1e-6 :=
  C2_amended_put_call_parity 100 100 1 1 0 1 one_pos one_pos
    (by rw [bsD1]; norm_num [Real.log_one, Real.sqrt_one])
    (by rw [bsD1]; norm_num [Real.log_one, Real.sqrt_one])

/-! ### C6: nonnegativity of `bsPrice` in every branch -/

/-- The coefficient polynomial of `hfun b - hfun a = (b - a) * Q a b` is
nonnegative on the unit square, so `hfun` is monotone on `[0, 1]`. -/
theorem hfun_mono {a b : ℝ} (ha : 0 ≤ a) (hab : a ≤ b) (hb : b ≤ 1) : hfun a ≤ hfun b := by
  have ha1 : a ≤ 1 := hab.trans hb
  have hb0 : 0 ≤ b := ha.trans hab
  have hQ : 0 ≤ 0.3193815 - 0.3565638 * (a + b) + 1.781478 * (a^2 + a*b + b^2)
      - 1.821256 * (a^3 + a^2*b + a*b^2 + b^3)
      + 1.330274 * (a^4 + a^3*b + a^2*b^2 + a*b^3 + b^4) := by
    nlinarith [sq_nonneg (a - b), sq_nonneg (a + b), sq_nonneg (a*b),
      mul_nonneg ha hb0, mul_nonneg (mul_nonneg ha hb0) (mul_nonneg ha hb0),
      mul_nonneg (mul_nonneg ha ha) (sub_nonneg.mpr ha1),
      mul_nonneg (mul_nonneg hb0 hb0) (sub_nonneg.mpr hb),
      mul_nonneg (mul_nonneg ha hb0) (sub_nonneg.mpr ha1),
      mul_nonneg (mul_nonneg ha hb0) (sub_nonneg.mpr hb),
      sq_nonneg (a + b - 1), sq_nonneg (a*a - a*b), sq_nonneg (b*b - a*b),
      mul_nonneg (mul_nonneg (sub_nonneg.mpr ha1) (sub_nonneg.mpr hb)) (mul_nonneg ha hb0)]
  have hkey : hfun b - hfun a = (b - a) *
      (0.3193815 - 0.3565638 * (a + b) + 1.781478 * (a^2 + a*b + b^2)
      - 1.821256 * (a^3 + a^2*b + a*b^2 + b^3)
      + 1.330274 * (a^4 + a^3*b + a^2*b^2 + a*b^3 + b^4)) := by
    rw [hfun, hfun, asPoly, asPoly]; ring
  nlinarith [mul_nonneg (sub_nonneg.mpr hab) hQ]

theorem tfun_pos (x : ℝ) : 0 < tfun x := by
  rw [tfun]
  have := abs_nonneg x
  positivity

theorem tfun_le_one (x : ℝ) : tfun x ≤ 1 := by
  rw [tfun, div_le_one (by positivity)]
  nlinarith [abs_nonneg x]

theorem tfun_anti {x y : ℝ} (hxy : |x| ≤ |y|) : tfun y ≤ tfun x := by
  rw [tfun, tfun]
  apply one_div_le_one_div_of_le (by positivity)
  nlinarith

theorem normTail_eq_hfun (x : ℝ) :
    normTail x = 0.3989423 * Real.exp (-(x * x) / 2) * hfun (tfun x) := by
  rw [normTail, hfun, tfun]
  ring

theorem gval_nonpos_eq {x : ℝ} (hx : x ≤ 0) :
    gval x = 0.3989423 * hfun (tfun x) := by
  rw [gval, normCdf, if_neg (not_lt.mpr hx), normTail_eq_hfun,
    show Real.exp (x * x / 2) * (0.3989423 * Real.exp (-(x * x) / 2) * hfun (tfun x)) =
      0.3989423 * (Real.exp (x * x / 2) * Real.exp (-(x * x) / 2)) * hfun (tfun x) from by ring,
    ← Real.exp_add, show x * x / 2 + -(x * x) / 2 = 0 from by ring, Real.exp_zero, mul_one]

theorem gval_pos_eq {x : ℝ} (hx : 0 < x) :
    gval x = Real.exp (x * x / 2) - 0.3989423 * hfun (tfun x) := by
  rw [gval, normCdf, if_pos hx, normTail_eq_hfun, mul_sub, mul_one,
    show Real.exp (x * x / 2) * (0.3989423 * Real.exp (-(x * x) / 2) * hfun (tfun x)) =
      0.3989423 * (Real.exp (x * x / 2) * Real.exp (-(x * x) / 2)) * hfun (tfun x) from by ring,
    ← Real.exp_add, show x * x / 2 + -(x * x) / 2 = 0 from by ring, Real.exp_zero, mul_one]

theorem hfun_one : hfun 1 = 1.2533137 := by
  rw [hfun, asPoly]; norm_num

/-- `gval` is monotone on all of ℝ: on the nonpositive side via `hfun_mono`
and the monotone substitution `tfun`; across zero because
`2 · 0.3989423 · hfun 1 = 0.99999970019902 < 1 ≤ exp(y²/2)`; on the positive
side via `exp` monotone and `hfun ∘ tfun` antitone. -/
theorem gval_mono {x y : ℝ} (hxy : x ≤ y) : gval x ≤ gval y := by
  rcases le_or_lt y 0 with hy | hy
  · have hx : x ≤ 0 := hxy.trans hy
    rw [gval_nonpos_eq hx, gval_nonpos_eq hy]
    have habs : |y| ≤ |x| := by
      rw [abs_of_nonpos hy, abs_of_nonpos hx]; linarith
    have hm := hfun_mono (tfun_pos x).le (tfun_anti habs) (tfun_le_one y)
    nlinarith
  · rcases le_or_lt x 0 with hx | hx
    · rw [gval_nonpos_eq hx, gval_pos_eq hy]
      have h1 := hfun_mono (tfun_pos x).le (tfun_le_one x) le_rfl
      have h2 := hfun_mono (tfun_pos y).le (tfun_le_one y) le_rfl
      rw [hfun_one] at h1 h2
      have hexp : (1:ℝ) ≤ Real.exp (y * y / 2) :=
        Real.one_le_exp (by positivity)
      nlinarith
    · rw [gval_pos_eq hx, gval_pos_eq hy]
      have habs : |x| ≤ |y| := by
        rw [abs_of_pos hx, abs_of_pos hy]; exact hxy
      have hm := hfun_mono (tfun_pos y).le (tfun_anti habs) (tfun_le_one x)
      have hexp : Real.exp (x * x / 2) ≤ Real.exp (y * y / 2) :=
        Real.exp_le_exp.mpr (by nlinarith)
      nlinarith

/-- Algebraic core of the forward identity: `(d2² - d1²)/2 = -log(S/K) - (r-q)T`. -/
theorem d_sq_diff (A T r q sigma sT d1 : ℝ) (hsT : sigma * sT ≠ 0) (hsqT : sT * sT = T)
    (hd1 : d1 = (A + (r - q + 0.5 * sigma * sigma) * T) / (sigma * sT)) :
    ((d1 - sigma * sT) * (d1 - sigma * sT) - d1 * d1) / 2 = -A - (r - q) * T := by
  have hd1' : d1 * (sigma * sT) = A + (r - q + 0.5 * sigma * sigma) * T := by
    rw [hd1]; field_simp
  linear_combination (-1 : ℝ) * hd1' + (0.5 * sigma * sigma) * hsqT

/-- The discounted strike equals the discounted stock times `exp((d2² - d1²)/2)`. -/
theorem discK_eq (S K T r q sigma : ℝ) (hS : 0 < S) (hK : 0 < K) (hT : 0 < T)
    (hsig : 0 < sigma) :
    K * Real.exp (-r * T) =
      S * Real.exp (-q * T) *
        Real.exp (((bsD1 S K T r q sigma - sigma * Real.sqrt T) *
          (bsD1 S K T r q sigma - sigma * Real.sqrt T) -
          bsD1 S K T r q sigma * bsD1 S K T r q sigma) / 2) := by
  have hsT : (0:ℝ) < sigma * Real.sqrt T := mul_pos hsig (Real.sqrt_pos.mpr hT)
  have hdd := d_sq_diff (Real.log (S / K)) T r q sigma (Real.sqrt T) (bsD1 S K T r q sigma)
    (ne_of_gt hsT) (Real.mul_self_sqrt hT.le) (by rw [bsD1])
  rw [hdd,
    show -Real.log (S / K) - (r - q) * T = -Real.log (S / K) + -((r - q) * T) from by ring,
    Real.exp_add, Real.exp_neg, Real.exp_log (div_pos hS hK), inv_div,
    show S * Real.exp (-q * T) * (K / S * Real.exp (-((r - q) * T))) =
      K * (S / S) * (Real.exp (-q * T) * Real.exp (-((r - q) * T))) from by ring,
    div_self (ne_of_gt hS), mul_one, ← Real.exp_add,
    show -q * T + -((r - q) * T) = -r * T from by ring]

theorem normCdf_eq_gval (x : ℝ) : normCdf x = Real.exp (-(x * x) / 2) * gval x := by
  rw [gval, ← mul_assoc, ← Real.exp_add, show -(x * x) / 2 + x * x / 2 = 0 from by ring,
    Real.exp_zero, one_mul]

theorem normCdf_neg_eq_gval (x : ℝ) :
    normCdf (-x) = Real.exp (-(x * x) / 2) * gval (-x) := by
  rw [normCdf_eq_gval (-x), neg_mul_neg]

/-- The standard call branch is nonnegative: it factors as a positive Gaussian
weight times `gval d1 - gval d2` with `d2 ≤ d1`. -/
theorem bs_call_std_nonneg (S K T r q sigma : ℝ) (hS : 0 < S) (hK : 0 < K) (hT : 0 < T)
    (hsig : 0 < sigma) :
    0 ≤ S * Real.exp (-q * T) * normCdf (bsD1 S K T r q sigma) -
        K * Real.exp (-r * T) * normCdf (bsD1 S K T r q sigma - sigma * Real.sqrt T) := by
  have hsT : (0:ℝ) < sigma * Real.sqrt T := mul_pos hsig (Real.sqrt_pos.mpr hT)
  have hg : gval (bsD1 S K T r q sigma - sigma * Real.sqrt T) ≤ gval (bsD1 S K T r q sigma) :=
    gval_mono (by linarith)
  have hmul : Real.exp (((bsD1 S K T r q sigma - sigma * Real.sqrt T) *
        (bsD1 S K T r q sigma - sigma * Real.sqrt T) -
        bsD1 S K T r q sigma * bsD1 S K T r q sigma) / 2) *
      Real.exp (-((bsD1 S K T r q sigma - sigma * Real.sqrt T) *
        (bsD1 S K T r q sigma - sigma * Real.sqrt T)) / 2) =
      Real.exp (-(bsD1 S K T r q sigma * bsD1 S K T r q sigma) / 2) := by
    rw [← Real.exp_add]
    congr 1
    ring
  have hfinal : S * Real.exp (-q * T) *
        (Real.exp (-(bsD1 S K T r q sigma * bsD1 S K T r q sigma) / 2) *
          gval (bsD1 S K T r q sigma)) -
      K * Real.exp (-r * T) *
        (Real.exp (-((bsD1 S K T r q sigma - sigma * Real.sqrt T) *
          (bsD1 S K T r q sigma - sigma * Real.sqrt T)) / 2) *
          gval (bsD1 S K T r q sigma - sigma * Real.sqrt T)) =
      S * Real.exp (-q * T) * Real.exp (-(bsD1 S K T r q sigma * bsD1 S K T r q sigma) / 2) *
        (gval (bsD1 S K T r q sigma) - gval (bsD1 S K T r q sigma - sigma * Real.sqrt T)) := by
    rw [discK_eq S K T r q sigma hS hK hT hsig]
    linear_combination
      (-(S * Real.exp (-q * T) * gval (bsD1 S K T r q sigma - sigma * Real.sqrt T))) * hmul
  rw [normCdf_eq_gval (bsD1 S K T r q sigma),
    normCdf_eq_gval (bsD1 S K T r q sigma - sigma * Real.sqrt T), hfinal]
  exact mul_nonneg (by positivity) (sub_nonneg.mpr hg)

/-- The standard put branch is nonnegative: it factors as a positive Gaussian
weight times `gval (-d2) - gval (-d1)` with `-d1 ≤ -d2`. -/
theorem bs_put_std_nonneg (S K T r q sigma : ℝ) (hS : 0 < S) (hK : 0 < K) (hT : 0 < T)
    (hsig : 0 < sigma) :
    0 ≤ K * Real.exp (-r * T) * normCdf (-(bsD1 S K T r q sigma - sigma * Real.sqrt T)) -
        S * Real.exp (-q * T) * normCdf (-bsD1 S K T r q sigma) := by
  have hsT : (0:ℝ) < sigma * Real.sqrt T := mul_pos hsig (Real.sqrt_pos.mpr hT)
  have hg : gval (-bsD1 S K T r q sigma) ≤
      gval (-(bsD1 S K T r q sigma - sigma * Real.sqrt T)) :=
    gval_mono (by linarith)
  have hmul : Real.exp (((bsD1 S K T r q sigma - sigma * Real.sqrt T) *
        (bsD1 S K T r q sigma - sigma * Real.sqrt T) -
        bsD1 S K T r q sigma * bsD1 S K T r q sigma) / 2) *
      Real.exp (-((bsD1 S K T r q sigma - sigma * Real.sqrt T) *
        (bsD1 S K T r q sigma - sigma * Real.sqrt T)) / 2) =
      Real.exp (-(bsD1 S K T r q sigma * bsD1 S K T r q sigma) / 2) := by
    rw [← Real.exp_add]
    congr 1
    ring
  have hfinal : K * Real.exp (-r * T) *
        (Real.exp (-((bsD1 S K T r q sigma - sigma * Real.sqrt T) *
          (bsD1 S K T r q sigma - sigma * Real.sqrt T)) / 2) *
          gval (-(bsD1 S K T r q sigma - sigma * Real.sqrt T))) -
      S * Real.exp (-q * T) *
        (Real.exp (-(bsD1 S K T r q sigma * bsD1 S K T r q sigma) / 2) *
          gval (-bsD1 S K T r q sigma)) =
      S * Real.exp (-q * T) * Real.exp (-(bsD1 S K T r q sigma * bsD1 S K T r q sigma) / 2) *
        (gval (-(bsD1 S K T r q sigma - sigma * Real.sqrt T)) -
          gval (-bsD1 S K T r q sigma)) := by
    rw [discK_eq S K T r q sigma hS hK hT hsig]
    linear_combination
      (S * Real.exp (-q * T) * gval (-(bsD1 S K T r q sigma - sigma * Real.sqrt T))) * hmul
  rw [normCdf_neg_eq_gval (bsD1 S K T r q sigma - sigma * Real.sqrt T),
    normCdf_neg_eq_gval (bsD1 S K T r q sigma), hfinal]
  exact mul_nonneg (by positivity) (sub_nonneg.mpr hg)

/-- C6: for every input with `S > 0`, `K > 0` and `sigma ≥ 0`, `bsPrice`
returns a nonnegative value for both option types in every branch: intrinsic
value at `T ≤ 0`, discounted deterministic payoff at `sigma ≤ 0`, and the
standard formula through the approximate `normCdf`. -/
theorem C6_bs_price_nonneg (S K T r q sigma : ℝ) (hS : 0 < S) (hK : 0 < K)
    (hsig : 0 ≤ sigma) (type : OptType) :
    0 ≤ bsPrice S K T r q sigma type := by
  rcases le_or_lt T 0 with hT | hT
  · cases type <;> rw [bsPrice, if_pos hT] <;> exact le_max_right _ _
  · rcases le_or_lt sigma 0 with hs | hs
    · cases type <;> rw [bsPrice, if_neg (not_le.mpr hT), if_pos hs] <;>
        exact mul_nonneg (le_max_right _ _) (Real.exp_pos _).le
    · cases type
      · rw [bsPrice_call_std S K T r q sigma hT hs]
        exact bs_call_std_nonneg S K T r q sigma hS hK hT hs
      · rw [bsPrice_put_std S K T r q sigma hT hs]
        exact bs_put_std_nonneg S K T r q sigma hS hK hT hs

/-- Witness for `C6_bs_price_nonneg` at `S = K = 100`, `T = 1`, `r = 0`,
`q = 0`, `sigma = 1`, for both option types (the standard branch). -/
theorem C6_witness :
    0 ≤ bsPrice 100 100 1 0 0 1 OptType.call ∧
      0 ≤ bsPrice 100 100 1 0 0 1 OptType.put :=
  ⟨C6_bs_price_nonneg 100 100 1 0 0 1 (by norm_num) (by norm_num) (by norm_num) OptType.call,
   C6_bs_price_nonneg 100 100 1 0 0 1 (by norm_num) (by norm_num) (by norm_num) OptType.put⟩

end ReturnApp
